import Mathlib

/-!
# NumbersQuest: the puzzle generator and the move engine of `script.js`

A shallow embedding of the game logic of `src/script.js`.

* JavaScript numbers are modelled by `Int`: every value the game handles is an
  integer far below `2 ^ 53`, where the source's arithmetic is exact.
  `calculateResultDouble` is `calculateResult` with the rounding of IEEE-754
  doubles; `calculateResultDouble_eq` shows that the two agree on safe integers.
* `null` is `none`; an operation is the string the source switches on.
* `Math.random()` is an external source of randomness.  Its `t`-th call is
  modelled by the natural number `rng t`, and `Math.floor(Math.random() * k)`
  by `rng t % k`, which ranges over `0 .. k - 1` as the source expression does.
* The `while (true)` loop of `generateSolution` is given fuel: one unit for each
  candidate it draws.
* The DOM side (`renderGrid`, `renderHistory`, `updateOperationButtons`, the
  text of `movesLeftEl`) is not modelled; `alert` and `showMessage` are returned
  as a `Feedback` value next to the new state.
-/

namespace NumbersQuest

/-! ## Data model -/

/-- One entry of `steps` (generator) and of `gameState.history` (engine):
`{ num1, num2, operation, result }`. -/
structure Step where
  num1 : Int
  num2 : Int
  operation : String
  result : Int
  deriving DecidableEq, Repr

/-- The object `generateSolution` returns: `{ numbers, target, steps }`. -/
structure PuzzleDefinition where
  numbers : List Int
  target : Int
  steps : List Step
  deriving DecidableEq, Repr

/-- The object stored in `gameState.currentAnchor`: `{ value, index }`. -/
structure Anchor where
  value : Int
  index : Nat
  deriving DecidableEq, Repr

/-- The global `gameState`.  `usedOperations` is a JavaScript `Set`: a list
without repetition in insertion order, see `setAdd`. -/
structure GameState where
  numbers : List (Option Int)
  target : Int
  currentAnchor : Option Anchor
  selectedOperation : Option String
  usedOperations : List String
  history : List Step
  deriving DecidableEq, Repr

/-- The three globals of the script: `gameState`, `initialNumbers` and
`currentSolutionPath`. -/
structure World where
  gameState : GameState
  initialNumbers : List Int
  currentSolutionPath : Option (List Step)
  deriving DecidableEq, Repr

/-- What a handler shows to the player: nothing, the `alert` of an invalid
operation, or one of the two messages of `checkWinCondition`. -/
inductive Feedback where
  | silent
  | invalidOperation
  | win
  | gameOver (target : Int)
  deriving DecidableEq, Repr

/-- Modelled from the spec: the four operation buttons.  The page that declares
them (`.operation-button` elements with a `data-operation` attribute) is not
among the sources; the spec gives `Operation` as the closed set
`{Add, Subtract, Multiply, Divide}`. -/
inductive Operation where
  | Add
  | Subtract
  | Multiply
  | Divide
  deriving DecidableEq, Repr

/-- The string a button passes to `handleOperationSelect`: the case labels of
the two `switch` statements of the source. -/
def Operation.symbol : Operation → String
  | .Add => "+"
  | .Subtract => "-"
  | .Multiply => "×"
  | .Divide => "÷"

/-! ## Generator -/

/-- `isValidNumber(num)`: `num > 0 && Number.isInteger(num) && num <= 100`.
Every `Int` is an integer, so the middle test is `true`. -/
def isValidNumber (num : Int) : Bool :=
  decide (num > 0) && true && decide (num ≤ 100)

/-- `applyOperation(a, b, op)`.  The `÷` branch is `a / b`; its only caller,
`generateSolution`, reaches it after checking `b ≠ 0` and `a % b = 0`, where
the JavaScript quotient is the exact integer quotient. -/
def applyOperation (a b : Int) (op : String) : Option Int :=
  if op = "+" then some (a + b)
  else if op = "-" then some (a - b)
  else if op = "×" then some (a * b)
  else if op = "÷" then some (a / b)
  else none

/-- `Math.floor(Math.random() * k)` at the `t`-th call of `Math.random`. -/
def floorRandom (rng : Nat → Nat) (t k : Nat) : Nat :=
  rng t % k

/-- The destructuring swap `[a[i], a[j]] = [a[j], a[i]]`: both right-hand
values are read first, then `a[i]` and `a[j]` are written in this order. -/
def swap {α : Type} (a : List α) (i j : Nat) : List α :=
  match a[i]?, a[j]? with
  | some x, some y => (a.set i y).set j x
  | _, _ => a

/-- The loop of `shuffleArray`, entered with loop variable `i`; `t` counts the
calls of `Math.random` made so far. -/
def shuffleLoop {α : Type} (rng : Nat → Nat) : Nat → Nat → List α → List α
  | _, 0, newArray => newArray
  | t, i + 1, newArray =>
    let j := floorRandom rng t (i + 1 + 1)
    shuffleLoop rng (t + 1) i (swap newArray (i + 1) j)

/-- `shuffleArray(array)`: Fisher-Yates on a copy of `array`, from the last
index down to 1. -/
def shuffleArray {α : Type} (rng : Nat → Nat) (t : Nat) (array : List α) : List α :=
  shuffleLoop rng t (array.length - 1) array

/-- Step 1 of `generateSolution`:
`Array.from({ length: 8 }, () => Math.floor(Math.random() * 9) + 1)`. -/
def drawNumbers (rng : Nat → Nat) (t : Nat) : List Int :=
  (List.range 8).map fun k => ((floorRandom rng (t + k) 9 + 1 : Nat) : Int)

/-- Step 2 of `generateSolution`: `shuffleArray(['×', '×', '+', '÷'])`, drawn
after the eight numbers. -/
def drawOperations (rng : Nat → Nat) (t : Nat) : List String :=
  shuffleArray rng (t + 8) ["×", "×", "+", "÷"]

/-- The `for` loop of `generateSolution` with `n` iterations left, loop
variable `i`, accumulator `result` and the `steps` pushed so far.  `none` is a
`throw`.  A missing `numbers[i + 1]` or `operations[i]` is `undefined` in the
source, which makes `applyOperation` return `NaN` or `null` and so throws as
well. -/
def solutionLoop (numbers : List Int) (operations : List String) :
    Nat → Nat → Int → List Step → Option (Int × List Step)
  | 0, _, result, steps => some (result, steps)
  | n + 1, i, result, steps =>
    match numbers[i + 1]?, operations[i]? with
    | some nextNum, some operation =>
      if operation = "-" ∧ result ≤ nextNum then none
      else if operation = "÷" ∧ (nextNum = 0 ∨ Int.tmod result nextNum ≠ 0) then none
      else
        match applyOperation result nextNum operation with
        | none => none
        | some newResult =>
          if !isValidNumber newResult then none
          else
            solutionLoop numbers operations n (i + 1) newResult
              (steps ++ [{ num1 := result, num2 := nextNum, operation := operation,
                           result := newResult }])
    | _, _ => none

/-- The body of the `try` block of `generateSolution` once `numbers` and
`operations` are drawn: `none` when it throws, the returned puzzle otherwise. -/
def tryCandidate (numbers : List Int) (operations : List String) :
    Option PuzzleDefinition :=
  match numbers[0]? with
  | none => none
  | some first =>
    match solutionLoop numbers operations 4 0 first [] with
    | none => none
    | some (result, steps) =>
      if result < 15 then none
      else some { numbers := numbers, target := result, steps := steps }

/-- `generateSolution()`: candidates are drawn until one is accepted.  Each
candidate uses eleven calls of `Math.random` (eight numbers, three swaps).
`none`: the fuel ran out before a candidate was accepted. -/
def generateSolution (rng : Nat → Nat) : Nat → Nat → Option PuzzleDefinition
  | _, 0 => none
  | t, fuel + 1 =>
    match tryCandidate (drawNumbers rng t) (drawOperations rng t) with
    | some puzzle => some puzzle
    | none => generateSolution rng (t + 11) fuel

/-! ## Move engine -/

/-- `calculateResult(num1, num2, operation)` in exact integer arithmetic, which
is the arithmetic of the source on safe integers (`calculateResultDouble_eq`):
there `Number.isInteger(num1 / num2)` holds exactly when `num2` divides `num1`,
and the quotient is then exact. -/
def calculateResult (num1 num2 : Int) (operation : String) : Option Int :=
  if operation = "+" then some (num1 + num2)
  else if operation = "-" then (if num1 > num2 then some (num1 - num2) else none)
  else if operation = "×" then some (num1 * num2)
  else if operation = "÷" then
    (if num2 ≠ 0 ∧ Int.tmod num1 num2 = 0 then some (num1 / num2) else none)
  else none

/-! ### The arithmetic of `calculateResult` on doubles

A finite double is `m * 2 ^ e` with a significand `m` of at most 53 bits.  The
definitions below round to the nearest double, ties to even, for magnitudes
below `2 ^ 1024` (no overflow to `Infinity`). -/

/-- The natural number `x * 2 ^ e` for `e ≥ 0`, and `x` for `e < 0`. -/
def scale (x : Nat) (e : Int) : Nat := x * 2 ^ e.toNat

/-- The integer nearest to `n / d`, ties to the even one. -/
def roundHalfEven (n d : Nat) : Nat :=
  if 2 * (n % d) < d then n / d
  else if d < 2 * (n % d) then n / d + 1
  else if (n / d) % 2 = 0 then n / d
  else n / d + 1

/-- The loop of `log2Floor`. -/
def log2Loop : Nat → Nat → Nat
  | 0, _ => 0
  | fuel + 1, n => if 2 ≤ n then log2Loop fuel (n / 2) + 1 else 0

/-- The position of the leading bit of `n`: `2 ^ log2Floor n ≤ n < 2 ^ (log2Floor n + 1)`
for `n ≠ 0`. -/
def log2Floor (n : Nat) : Nat := log2Loop n n

/-- The binary exponent `k` of the positive quotient `p / q`:
`2 ^ k ≤ p / q < 2 ^ (k + 1)`. -/
def exponentOf (p q : Nat) : Int :=
  if scale q ((log2Floor p : Int) - (log2Floor q : Int)) ≤
      scale p (-((log2Floor p : Int) - (log2Floor q : Int))) then
    (log2Floor p : Int) - (log2Floor q : Int)
  else (log2Floor p : Int) - (log2Floor q : Int) - 1

/-- The double nearest to `p / q` (for `q ≠ 0`), as the pair `(m, e)` that stands for
`m * 2 ^ e`: the quotient is scaled to 53 bits and rounded half to even. -/
def nearestDouble (p q : Nat) : Nat × Int :=
  if p = 0 then (0, 0)
  else
    (roundHalfEven (scale p (-(exponentOf p q - 52))) (scale q (exponentOf p q - 52)),
      exponentOf p q - 52)

/-- `Number.isInteger` on the non-negative double `m * 2 ^ e`. -/
def isIntegerDouble (d : Nat × Int) : Bool := decide (2 ^ (-d.2).toNat ∣ d.1)

/-- The value of the double `m * 2 ^ e` when it is an integer. -/
def integerValue (d : Nat × Int) : Nat := d.1 * 2 ^ d.2.toNat / 2 ^ (-d.2).toNat

/-- The double nearest to the integer `n`; it is an integer itself. -/
def roundNumber (n : Int) : Int :=
  n.sign * (integerValue (nearestDouble n.natAbs 1) : Nat)

/-- `calculateResult(num1, num2, operation)` with the arithmetic of the source:
the operands are integers that are doubles, `+`, `-` and `*` give the double
nearest to the exact value, and `num1 / num2` is the double nearest to the
quotient, on which `Number.isInteger` is tested. -/
def calculateResultDouble (num1 num2 : Int) (operation : String) : Option Int :=
  if operation = "+" then some (roundNumber (num1 + num2))
  else if operation = "-" then
    (if num1 > num2 then some (roundNumber (num1 - num2)) else none)
  else if operation = "×" then some (roundNumber (num1 * num2))
  else if operation = "÷" then
    (if num2 ≠ 0 ∧ isIntegerDouble (nearestDouble num1.natAbs num2.natAbs) = true then
      some (num1.sign * num2.sign *
        (integerValue (nearestDouble num1.natAbs num2.natAbs) : Nat))
    else none)
  else none

/-- `usedOperations.add(x)` on a JavaScript `Set`. -/
def setAdd (set : List String) (x : String) : List String :=
  if x ∈ set then set else set ++ [x]

/-- `checkWinCondition(result)`: the comparison the deferred callback makes,
evaluated at once. -/
def checkWinCondition (s : GameState) (result : Int) : Feedback :=
  if result = s.target then Feedback.win else Feedback.gameOver s.target

/-- `handleNumberSelect(index)`.  The handler is registered by `renderGrid` on
the cells of the grid, so `index < numbers.length`; for an index outside the
grid (`numbers[index]` is `undefined` in the source, a value this model does
not have) the state is returned as it is; the theorems about attempts take
clicks on cells of the grid (`Action.inGrid`).  An empty string is falsy in `gameState.selectedOperation && ...`. -/
def handleNumberSelect (s : GameState) (index : Nat) : GameState × Feedback :=
  match s.numbers[index]? with
  | none => (s, Feedback.silent)
  | some none => (s, Feedback.silent)
  | some (some number) =>
    match s.currentAnchor with
    | none =>
      ({ s with currentAnchor := some { value := number, index := index } },
        Feedback.silent)
    | some anchor =>
      match s.selectedOperation with
      | none => (s, Feedback.silent)
      | some operation =>
        if operation ≠ "" ∧ anchor.index ≠ index then
          match calculateResult anchor.value number operation with
          | none => (s, Feedback.invalidOperation)
          | some result =>
            let newNumbers := (s.numbers.set anchor.index (some result)).set index none
            let s' : GameState :=
              { numbers := newNumbers
                target := s.target
                currentAnchor := some { value := result, index := anchor.index }
                selectedOperation := none
                usedOperations := setAdd s.usedOperations operation
                history := s.history ++
                  [{ num1 := anchor.value, num2 := number, operation := operation,
                     result := result }] }
            if s'.usedOperations.length = 4 then (s', checkWinCondition s' result)
            else (s', Feedback.silent)
        else (s, Feedback.silent)

/-- `handleOperationSelect(operation)`. -/
def handleOperationSelect (s : GameState) (operation : String) : GameState :=
  if s.currentAnchor = none ∨ operation ∈ s.usedOperations then s
  else { s with selectedOperation := some operation }

/-- The part of `initGame` after `const puzzle = generateSolution()`.
`puzzle.numbers[0]` exists: `generateSolution` returns eight numbers. -/
def initGameWith (puzzle : PuzzleDefinition) : World :=
  let initialNumbers := puzzle.numbers ++ puzzle.numbers.head?.toList
  { gameState :=
      { numbers := initialNumbers.map some
        target := puzzle.target
        currentAnchor := none
        selectedOperation := none
        usedOperations := []
        history := [] }
    initialNumbers := initialNumbers
    currentSolutionPath := some puzzle.steps }

/-- `initGame()`: `none` when `generateSolution` has not returned within the
fuel. -/
def initGame (rng : Nat → Nat) (t fuel : Nat) : Option World :=
  (generateSolution rng t fuel).map initGameWith

/-- `resetPuzzle()`. -/
def resetPuzzle (w : World) : World :=
  { w with
    gameState :=
      { numbers := w.initialNumbers.map some
        target := w.gameState.target
        currentAnchor := none
        selectedOperation := none
        usedOperations := []
        history := [] } }

/-- A player action: a click on a grid cell or on an operation button. -/
inductive Action where
  | selectNumber (index : Nat)
  | selectOperation (op : Operation)
  deriving DecidableEq, Repr

/-- The handler an action runs, with the feedback it gives. -/
def step (s : GameState) : Action → GameState × Feedback
  | .selectNumber index => handleNumberSelect s index
  | .selectOperation op => (handleOperationSelect s op.symbol, Feedback.silent)

/-- The state after a sequence of actions. -/
def run (s : GameState) : List Action → GameState
  | [] => s
  | a :: rest => run (step s a).1 rest

/-- The feedback of each action of a sequence, in order. -/
def feedbacks (s : GameState) : List Action → List Feedback
  | [] => []
  | a :: rest => (step s a).2 :: feedbacks (step s a).1 rest

/-- A click on a cell of the grid, or on a button. -/
def Action.inGrid (s : GameState) : Action → Prop
  | .selectNumber index => index < s.numbers.length
  | .selectOperation _ => True

/-- States the player can reach from `s0` by clicks on grid cells and on
operation buttons. -/
inductive Reachable (s0 : GameState) : GameState → Prop where
  | start : Reachable s0 s0
  | next {s : GameState} (a : Action) :
      Reachable s0 s → a.inGrid s → Reachable s0 (step s a).1

/-- A state as `initGame` and `resetPuzzle` build it: no anchor, no selected
operation, no used operation, empty history. -/
def freshState (numbers : List (Option Int)) (target : Int) : GameState :=
  { numbers := numbers
    target := target
    currentAnchor := none
    selectedOperation := none
    usedOperations := []
    history := [] }

/-! ## Specification-side definitions -/

/-- The exact value of an arithmetic step: `r` is the value of `a op b`, where
a quotient counts only when the divisor is not zero and the division leaves no
remainder. -/
def ExactValue (op : String) (a b r : Int) : Prop :=
  (op = "+" ∧ r = a + b) ∨ (op = "-" ∧ r = a - b) ∨ (op = "×" ∧ r = a * b) ∨
    (op = "÷" ∧ b ≠ 0 ∧ r * b = a)

/-- A sequence of steps that starts from `start`, takes its `k`-th second
operand and operation from `numbers[i + k + 1]` and `operations[i + k]`, passes
each result on as the next first operand, keeps every result an integer in
`1 .. 100`, and ends on `final`. -/
def WitnessChain (numbers : List Int) (operations : List String) :
    Nat → Int → List Step → Int → Prop
  | _, start, [], final => final = start
  | i, start, st :: rest, final =>
    st.num1 = start ∧ numbers[i + 1]? = some st.num2 ∧
      operations[i]? = some st.operation ∧
      ExactValue st.operation st.num1 st.num2 st.result ∧
      1 ≤ st.result ∧ st.result ≤ 100 ∧
      WitnessChain numbers operations (i + 1) st.result rest final

/-- The steps of a puzzle are a valid witness: exactly four entries; the first
starts from `numbers[0]`; entry `i` takes `numbers[i + 1]` as second operand;
each entry starts from the result of the one before; each result is the exact
value of its operation; the last result is the target; every result is an
integer in `1 .. 100`. -/
def StepsWitness (p : PuzzleDefinition) : Prop :=
  ∃ s0 s1 s2 s3 : Step, p.steps = [s0, s1, s2, s3] ∧
    p.numbers[0]? = some s0.num1 ∧
    p.numbers[1]? = some s0.num2 ∧ p.numbers[2]? = some s1.num2 ∧
    p.numbers[3]? = some s2.num2 ∧ p.numbers[4]? = some s3.num2 ∧
    s1.num1 = s0.result ∧ s2.num1 = s1.result ∧ s3.num1 = s2.result ∧
    ExactValue s0.operation s0.num1 s0.num2 s0.result ∧
    ExactValue s1.operation s1.num1 s1.num2 s1.result ∧
    ExactValue s2.operation s2.num1 s2.num2 s2.result ∧
    ExactValue s3.operation s3.num1 s3.num2 s3.result ∧
    s3.result = p.target ∧
    (∀ st ∈ p.steps, 1 ≤ st.result ∧ st.result ≤ 100) ∧
    1 ≤ p.target ∧ p.target ≤ 100

/-- One step of the recipe of the spec (section 4.1, step 4): the new result is
the exact value of the operation and a positive integer at most 100. -/
def SpecStep (op : String) (a b r : Int) : Prop :=
  ExactValue op a b r ∧ 1 ≤ r ∧ r ≤ 100

/-- The acceptance recipe of the spec for one candidate: fold from
`numbers[0]` over `i = 0 .. 3` with operand `numbers[i + 1]` and operator
`operations[i]`; every step is a `SpecStep`; the final result `target` is at
least 15. -/
def SpecAccepts (numbers : List Int) (operations : List String) (target : Int) : Prop :=
  ∃ n0 n1 n2 n3 n4 op0 op1 op2 op3 r1 r2 r3,
    numbers[0]? = some n0 ∧ numbers[1]? = some n1 ∧ numbers[2]? = some n2 ∧
    numbers[3]? = some n3 ∧ numbers[4]? = some n4 ∧
    operations[0]? = some op0 ∧ operations[1]? = some op1 ∧
    operations[2]? = some op2 ∧ operations[3]? = some op3 ∧
    SpecStep op0 n0 n1 r1 ∧ SpecStep op1 r1 n2 r2 ∧ SpecStep op2 r2 n3 r3 ∧
    SpecStep op3 r3 n4 target ∧ 15 ≤ target

/-! ## Sample inputs -/

/-- A random source whose first candidate is the numbers `[3,3,3,1,3,3,3,3]`
with the operations `[×, ×, ÷, +]`. -/
def sampleRng : Nat → Nat :=
  fun t => [2, 2, 2, 0, 2, 2, 2, 2, 2, 2, 1].getD t 0

/-- The puzzle `generateSolution` returns on `sampleRng`. -/
def samplePuzzle : PuzzleDefinition :=
  { numbers := [3, 3, 3, 1, 3, 3, 3, 3]
    target := 30
    steps := [⟨3, 3, "×", 9⟩, ⟨9, 3, "×", 27⟩, ⟨27, 1, "÷", 27⟩, ⟨27, 3, "+", 30⟩] }

/-- The state `handleNumberSelect` builds when the move of the anchor
`{ value: a, index: i }` with the slot `j` holding `b` under `op` gives `r`. -/
def moveState (s : GameState) (a : Int) (i j : Nat) (b : Int) (op : String) (r : Int) :
    GameState :=
  { numbers := (s.numbers.set i (some r)).set j none
    target := s.target
    currentAnchor := some { value := r, index := i }
    selectedOperation := none
    usedOperations := setAdd s.usedOperations op
    history := s.history ++ [{ num1 := a, num2 := b, operation := op, result := r }] }

/-- The four operation strings of the buttons. -/
def fourOperations : List String := ["+", "-", "×", "÷"]

/-- A feedback that is an outcome of the attempt: one of the two messages of
`checkWinCondition`. -/
def Feedback.isOutcome : Feedback → Bool
  | .win => true
  | .gameOver _ => true
  | _ => false

/-- Every click of the sequence is on a cell of the grid as it is then, or on
a button. -/
def ClicksInGrid (s : GameState) : List Action → Prop
  | [] => True
  | a :: rest => a.inGrid s ∧ ClicksInGrid (step s a).1 rest

/-- The handler an action runs, on the globals: only `gameState` changes. -/
def worldStep (w : World) (a : Action) : World :=
  { w with gameState := (step w.gameState a).1 }

/-- The globals after a sequence of actions. -/
def worldRun (w : World) : List Action → World
  | [] => w
  | a :: rest => worldRun (worldStep w a) rest

/-- A state with nine slots in which the slot 0, holding `a`, is the anchor,
`op` is the selected operation and the slot 1 holds `b`. -/
def pendingState (a b : Int) (op : String) : GameState :=
  { numbers := [some a, some b, some 1, some 1, some 1, some 1, some 1, some 1, some 1]
    target := 50
    currentAnchor := some { value := a, index := 0 }
    selectedOperation := some op
    usedOperations := []
    history := [] }

/-- A random source whose first candidate is the numbers `[9,1,9,9,1,9,9,9]`
with the operations `[×, ×, +, ÷]`. -/
def bigRng : Nat → Nat :=
  fun t => [8, 0, 8, 8, 0, 8, 8, 8, 3, 2, 1].getD t 0

/-- The puzzle `generateSolution` returns on `bigRng`. -/
def bigPuzzle : PuzzleDefinition :=
  { numbers := [9, 1, 9, 9, 1, 9, 9, 9]
    target := 90
    steps := [⟨9, 1, "×", 9⟩, ⟨9, 9, "×", 81⟩, ⟨81, 9, "+", 90⟩, ⟨90, 1, "÷", 90⟩] }

/-- Each entry of a history starts from the result of the entry before it. -/
def Chained (history : List Step) : Prop :=
  List.Chain' (fun e1 e2 : Step => e2.num1 = e1.result) history

/-- The invariant of the states of one attempt. -/
structure Inv (s : GameState) : Prop where
  used_eq : s.usedOperations = s.history.map Step.operation
  nodup : s.usedOperations.Nodup
  used_sub : ∀ x ∈ s.usedOperations, x ∈ fourOperations
  selected : ∀ op, s.selectedOperation = some op →
    op ∉ s.usedOperations ∧ op ∈ fourOperations ∧ s.currentAnchor ≠ none
  anchor_slot : ∀ a i, s.currentAnchor = some ⟨a, i⟩ → s.numbers[i]? = some (some a)
  no_anchor : s.currentAnchor = none → s.history = []
  chained : Chained s.history
  last : ∀ e, s.history.getLast? = some e → ∃ i, s.currentAnchor = some ⟨e.result, i⟩
  exact : ∀ e ∈ s.history, calculateResult e.num1 e.num2 e.operation = some e.result

instance (s : GameState) (a : Action) : Decidable (a.inGrid s) :=
  match a with
  | .selectNumber index => inferInstanceAs (Decidable (index < s.numbers.length))
  | .selectOperation _ => isTrue trivial

/-- Deciding `ClicksInGrid` by running the clicks. -/
def decideClicksInGrid : (s : GameState) → (actions : List Action) →
    Decidable (ClicksInGrid s actions)
  | _, [] => isTrue trivial
  | s, a :: rest =>
    @instDecidableAnd (a.inGrid s) (ClicksInGrid (step s a).1 rest) _
      (decideClicksInGrid (step s a).1 rest)

instance (s : GameState) (actions : List Action) : Decidable (ClicksInGrid s actions) :=
  decideClicksInGrid s actions

/-- The state `initGame` builds from `samplePuzzle`. -/
def sampleStart : GameState :=
  freshState [some 3, some 3, some 3, some 1, some 3, some 3, some 3, some 3, some 3] 30

/-- A full attempt on `sampleStart`: 3 × 3 = 9, 9 + 3 = 12, 12 ÷ 1 = 12,
12 - 3 = 9. -/
def sampleGame : List Action :=
  [.selectNumber 0, .selectOperation .Multiply, .selectNumber 1,
    .selectOperation .Add, .selectNumber 2,
    .selectOperation .Divide, .selectNumber 3,
    .selectOperation .Subtract, .selectNumber 4]

/-- The fresh state of `sampleStart` with target 9: the attempt `sampleGame`
wins it. -/
def sampleStartNine : GameState :=
  freshState [some 3, some 3, some 3, some 1, some 3, some 3, some 3, some 3, some 3] 9

/-- The attempt `sampleGame` without its last click. -/
def sampleGameOpen : List Action :=
  [.selectNumber 0, .selectOperation .Multiply, .selectNumber 1,
    .selectOperation .Add, .selectNumber 2,
    .selectOperation .Divide, .selectNumber 3,
    .selectOperation .Subtract]

/-- Every number of an attempt is positive: the values of the grid and the
operands and results of the history. -/
structure Pos (s : GameState) : Prop where
  grid : ∀ (k : Nat) (v : Int), s.numbers[k]? = some (some v) → 1 ≤ v
  hist : ∀ e ∈ s.history, 1 ≤ e.num1 ∧ 1 ≤ e.num2 ∧ 1 ≤ e.result

/-- The largest value the anchor of `sampleStart` can hold once the operations
`used` are applied: its slots hold at most 3, an addition adds at most 3, a
multiplication multiplies by at most 3, and the two other operations do not
increase a positive value. -/
def moveBound (used : List String) : Int :=
  (if "+" ∈ used then 2 else 1) * (if "×" ∈ used then 3 else 1) * 3

/-- The states of an attempt on `sampleStart`: target 30, every slot but the
anchor's holds a value in `1 .. 3`, the anchor's value is within `moveBound`. -/
structure Small (s : GameState) : Prop where
  target : s.target = 30
  grid : ∀ (k : Nat) (v : Int), s.numbers[k]? = some (some v) →
    (∃ a, s.currentAnchor = some ⟨a, k⟩) ∨ (1 ≤ v ∧ v ≤ 3)
  anchor : ∀ a i, s.currentAnchor = some ⟨a, i⟩ → 1 ≤ a ∧ a ≤ moveBound s.usedOperations

/-! ## Generator: lemmas -/

theorem sample_generated : generateSolution sampleRng 0 1 = some samplePuzzle := by
  rfl

theorem isValidNumber_iff (n : Int) : isValidNumber n = true ↔ 1 ≤ n ∧ n ≤ 100 := by
  simp [isValidNumber]
  omega

theorem exactValue_unique {op : String} {a b r r' : Int}
    (h : ExactValue op a b r) (h' : ExactValue op a b r') : r = r' := by
  rcases h with ⟨e, h⟩ | ⟨e, h⟩ | ⟨e, h⟩ | ⟨e, hb, h⟩ <;>
    rcases h' with ⟨e', h'⟩ | ⟨e', h'⟩ | ⟨e', h'⟩ | ⟨e', hb', h'⟩ <;>
    first
      | (subst e; exact absurd e' (by decide))
      | (rw [h, h'])
      | exact Int.eq_of_mul_eq_mul_right hb (h.trans h'.symm)

/-- One iteration of the loop of `generateSolution` passes its guards exactly
when the new result is the exact value of the step and lies in `1 .. 100`. -/
theorem loop_body_iff (operation : String) (result nextNum newResult : Int) :
    (¬ (operation = "-" ∧ result ≤ nextNum) ∧
      ¬ (operation = "÷" ∧ (nextNum = 0 ∨ Int.tmod result nextNum ≠ 0)) ∧
      applyOperation result nextNum operation = some newResult ∧
      isValidNumber newResult = true) ↔
    (ExactValue operation result nextNum newResult ∧ 1 ≤ newResult ∧ newResult ≤ 100) := by
  rw [isValidNumber_iff]
  unfold applyOperation ExactValue
  by_cases h1 : operation = "+"
  · subst h1
    simp
    intro _ _
    exact eq_comm
  by_cases h2 : operation = "-"
  · subst h2
    simp
    constructor
    · rintro ⟨_, h, h2, h3⟩; exact ⟨h.symm, h2, h3⟩
    · rintro ⟨h, h2, h3⟩; exact ⟨by omega, h.symm, h2, h3⟩
  by_cases h3 : operation = "×"
  · subst h3
    simp
    intro _ _
    exact eq_comm
  by_cases h4 : operation = "÷"
  · subst h4
    simp
    constructor
    · rintro ⟨⟨hb, hm⟩, h, h2, h3⟩
      refine ⟨⟨hb, ?_⟩, h2, h3⟩
      rw [← h]
      exact Int.ediv_mul_cancel (Int.dvd_of_tmod_eq_zero hm)
    · rintro ⟨⟨hb, h⟩, h2, h3⟩
      refine ⟨⟨hb, ?_⟩, ?_, h2, h3⟩
      · exact Int.tmod_eq_zero_of_dvd ⟨newResult, by rw [← h, Int.mul_comm]⟩
      · rw [← h]
        exact Int.mul_ediv_cancel _ hb
  simp [h1, h2, h3, h4]

/-- The loop of `generateSolution` returns exactly the witness chains. -/
theorem solutionLoop_iff (numbers : List Int) (operations : List String) :
    ∀ (n i : Nat) (result : Int) (steps : List Step) (r : Int) (out : List Step),
      solutionLoop numbers operations n i result steps = some (r, out) ↔
        ∃ new, out = steps ++ new ∧ new.length = n ∧
          WitnessChain numbers operations i result new r := by
  intro n
  induction n with
  | zero =>
    intro i result steps r out
    simp only [solutionLoop, Option.some.injEq, Prod.mk.injEq]
    constructor
    · rintro ⟨rfl, rfl⟩
      exact ⟨[], by simp, rfl, rfl⟩
    · rintro ⟨new, rfl, hlen, hc⟩
      have : new = [] := List.length_eq_zero.mp hlen
      subst this
      exact ⟨hc.symm, by simp⟩
  | succ n ih =>
    intro i result steps r out
    constructor
    · intro h
      rw [solutionLoop] at h
      cases hn : numbers[i + 1]? with
      | none => simp [hn] at h
      | some nextNum =>
        cases ho : operations[i]? with
        | none => simp [hn, ho] at h
        | some operation =>
          simp only [hn, ho] at h
          by_cases g1 : operation = "-" ∧ result ≤ nextNum
          · simp [g1] at h
          by_cases g2 : operation = "÷" ∧ (nextNum = 0 ∨ Int.tmod result nextNum ≠ 0)
          · rw [if_neg g1, if_pos g2] at h
            exact absurd h (by simp)
          rw [if_neg g1, if_neg g2] at h
          cases ha : applyOperation result nextNum operation with
          | none => simp [ha] at h
          | some newResult =>
            simp only [ha] at h
            by_cases hv : isValidNumber newResult = true
            · simp only [hv, Bool.not_true, Bool.false_eq_true, if_false] at h
              obtain ⟨new, rfl, hlen, hc⟩ := (ih _ _ _ _ _).mp h
              have hb := (loop_body_iff operation result nextNum newResult).mp
                ⟨g1, g2, ha, hv⟩
              refine ⟨⟨result, nextNum, operation, newResult⟩ :: new, by simp, by simp [hlen],
                ?_⟩
              exact ⟨rfl, hn, ho, hb.1, hb.2.1, hb.2.2, hc⟩
            · simp [hv] at h
    · rintro ⟨new, rfl, hlen, hc⟩
      cases new with
      | nil => simp at hlen
      | cons st rest =>
        obtain ⟨h1, hn, ho, hex, hlo, hhi, hrest⟩ := hc
        have hb := (loop_body_iff st.operation result st.num2 st.result).mpr
          ⟨h1 ▸ hex, hlo, hhi⟩
        obtain ⟨g1, g2, ha, hv⟩ := hb
        rw [solutionLoop]
        simp only [hn, ho]
        rw [if_neg g1, if_neg g2]
        simp only [ha, hv, Bool.not_true, Bool.false_eq_true, if_false]
        apply (ih _ _ _ _ _).mpr
        refine ⟨rest, ?_, by simpa using hlen, hrest⟩
        cases st
        simp at h1
        simp [h1]

/-- What `tryCandidate` returns: the candidate's numbers, a chain of four steps
from `numbers[0]`, and its final result, which is at least 15. -/
theorem tryCandidate_iff (numbers : List Int) (operations : List String)
    (p : PuzzleDefinition) :
    tryCandidate numbers operations = some p ↔
      p.numbers = numbers ∧ p.steps.length = 4 ∧ 15 ≤ p.target ∧
        ∃ first, numbers[0]? = some first ∧
          WitnessChain numbers operations 0 first p.steps p.target := by
  unfold tryCandidate
  cases h0 : numbers[0]? with
  | none => simp
  | some first =>
    simp only
    cases hl : solutionLoop numbers operations 4 0 first [] with
    | none =>
      simp only [false_iff, reduceCtorEq]
      rintro ⟨_, hlen, _, f, hf, hc⟩
      have hf' : f = first := by simpa using hf.symm
      subst hf'
      have := (solutionLoop_iff numbers operations 4 0 f [] p.target p.steps).mpr
        ⟨p.steps, by simp, hlen, hc⟩
      rw [hl] at this
      exact absurd this (by simp)
    | some res =>
      obtain ⟨result, steps⟩ := res
      obtain ⟨new, hout, hlen, hc⟩ := (solutionLoop_iff _ _ _ _ _ _ _ _).mp hl
      simp only [List.nil_append] at hout
      subst hout
      by_cases ht : result < 15
      · simp only [ht, if_true, false_iff, reduceCtorEq]
        rintro ⟨_, hlen', h15, f, hf, hc'⟩
        have hf' : f = first := by simpa using hf.symm
        subst hf'
        have := (solutionLoop_iff numbers operations 4 0 f [] p.target p.steps).mpr
          ⟨p.steps, by simp, hlen', hc'⟩
        rw [hl] at this
        simp only [Option.some.injEq, Prod.mk.injEq] at this
        omega
      · simp only [ht, if_false, Option.some.injEq]
        constructor
        · rintro rfl
          exact ⟨rfl, hlen, by simpa using ht, first, rfl, hc⟩
        · rintro ⟨hnum, hlen', _, f, hf, hc'⟩
          have hf' : f = first := by simpa using hf.symm
          subst hf'
          have := (solutionLoop_iff numbers operations 4 0 f [] p.target p.steps).mpr
            ⟨p.steps, by simp, hlen', hc'⟩
          rw [hl] at this
          simp only [Option.some.injEq, Prod.mk.injEq] at this
          cases p
          simp_all

/-- A puzzle returned by `generateSolution` is an accepted candidate drawn from
the random source. -/
theorem generateSolution_some (rng : Nat → Nat) :
    ∀ (fuel t : Nat) (p : PuzzleDefinition), generateSolution rng t fuel = some p →
      ∃ t', tryCandidate (drawNumbers rng t') (drawOperations rng t') = some p := by
  intro fuel
  induction fuel with
  | zero => intro t p h; simp [generateSolution] at h
  | succ fuel ih =>
    intro t p h
    rw [generateSolution] at h
    cases hc : tryCandidate (drawNumbers rng t) (drawOperations rng t) with
    | none =>
      rw [hc] at h
      exact ih _ _ h
    | some q =>
      rw [hc] at h
      simp only [Option.some.injEq] at h
      exact ⟨t, h ▸ hc⟩

/-- Three swaps of the Fisher-Yates loop on the four operations, whatever the
three random indices are, give a permutation. -/
theorem swaps_perm : ∀ a < 4, ∀ b < 3, ∀ c < 2,
    (swap (swap (swap ["×", "×", "+", "÷"] 3 a) 2 b) 1 c).Perm ["×", "×", "+", "÷"] := by
  decide

/-- The operations of a candidate are a permutation of `×, ×, +, ÷`. -/
theorem drawOperations_perm (rng : Nat → Nat) (t : Nat) :
    (drawOperations rng t).Perm ["×", "×", "+", "÷"] := by
  have h : drawOperations rng t =
      swap (swap (swap ["×", "×", "+", "÷"] 3 (rng (t + 8) % 4)) 2 (rng (t + 8 + 1) % 3)) 1
        (rng (t + 8 + 1 + 1) % 2) := rfl
  rw [h]
  exact swaps_perm _ (Nat.mod_lt _ (by decide)) _ (Nat.mod_lt _ (by decide)) _
    (Nat.mod_lt _ (by decide))

/-- The numbers of a candidate: eight integers in `1 .. 9`. -/
theorem drawNumbers_spec (rng : Nat → Nat) (t : Nat) :
    (drawNumbers rng t).length = 8 ∧ ∀ x ∈ drawNumbers rng t, 1 ≤ x ∧ x ≤ 9 := by
  constructor
  · simp [drawNumbers]
  · intro x hx
    simp only [drawNumbers, floorRandom, List.mem_map, List.mem_range] at hx
    obtain ⟨k, _, rfl⟩ := hx
    have := Nat.mod_lt (rng (t + k)) (by decide : 9 > 0)
    omega

/-- The operations of a chain of four steps are the first four operations of
the candidate. -/
theorem chain_operations {numbers : List Int} {operations : List String} :
    ∀ {steps : List Step} {i : Nat} {start final : Int},
      WitnessChain numbers operations i start steps final →
        ∀ k (st : Step), steps[k]? = some st → operations[i + k]? = some st.operation := by
  intro steps
  induction steps with
  | nil => intro i start final _ k st h; simp at h
  | cons s rest ih =>
    intro i start final hc k st h
    obtain ⟨_, _, ho, _, _, _, hrest⟩ := hc
    cases k with
    | zero =>
      simp at h
      subst h
      simpa using ho
    | succ k =>
      simp at h
      have := ih hrest k st h
      rw [← this]
      congr 1
      omega

/-- A chain of four steps, spelled out. -/
theorem chain_four {numbers : List Int} {operations : List String} {first final : Int}
    {steps : List Step} (hlen : steps.length = 4)
    (hc : WitnessChain numbers operations 0 first steps final) :
    ∃ s0 s1 s2 s3 : Step, steps = [s0, s1, s2, s3] ∧ s0.num1 = first ∧
      numbers[1]? = some s0.num2 ∧ numbers[2]? = some s1.num2 ∧
      numbers[3]? = some s2.num2 ∧ numbers[4]? = some s3.num2 ∧
      operations[0]? = some s0.operation ∧ operations[1]? = some s1.operation ∧
      operations[2]? = some s2.operation ∧ operations[3]? = some s3.operation ∧
      s1.num1 = s0.result ∧ s2.num1 = s1.result ∧ s3.num1 = s2.result ∧
      SpecStep s0.operation s0.num1 s0.num2 s0.result ∧
      SpecStep s1.operation s1.num1 s1.num2 s1.result ∧
      SpecStep s2.operation s2.num1 s2.num2 s2.result ∧
      SpecStep s3.operation s3.num1 s3.num2 s3.result ∧
      s3.result = final := by
  match steps, hlen, hc with
  | [s0, s1, s2, s3], _, hc =>
    obtain ⟨a0, b0, c0, d0, e0, f0, a1, b1, c1, d1, e1, f1, a2, b2, c2, d2, e2, f2,
      a3, b3, c3, d3, e3, f3, hfin⟩ := hc
    exact ⟨s0, s1, s2, s3, rfl, a0, b0, b1, b2, b3, c0, c1, c2, c3, a1, a2, a3,
      ⟨d0, e0, f0⟩, ⟨d1, e1, f1⟩, ⟨d2, e2, f2⟩, ⟨d3, e3, f3⟩, hfin.symm⟩

/-- The steps of an accepted candidate carry the candidate's operations, in
order. -/
theorem steps_operations {numbers : List Int} {operations : List String}
    {p : PuzzleDefinition} (h : tryCandidate numbers operations = some p)
    (hlen : operations.length = 4) : p.steps.map Step.operation = operations := by
  obtain ⟨_, hl, _, first, _, hc⟩ := (tryCandidate_iff _ _ _).mp h
  obtain ⟨s0, s1, s2, s3, hs, _, _, _, _, _, o0, o1, o2, o3, _⟩ := chain_four hl hc
  rw [hs]
  match operations, hlen with
  | [a, b, c, d], _ =>
    simp at o0 o1 o2 o3
    simp [o0, o1, o2, o3]

/-- The operations of the steps of a generated puzzle are a permutation of
`×, ×, +, ÷`. -/
theorem generated_operations_perm {rng : Nat → Nat} {t fuel : Nat} {p : PuzzleDefinition}
    (h : generateSolution rng t fuel = some p) :
    (p.steps.map Step.operation).Perm ["×", "×", "+", "÷"] := by
  obtain ⟨t', ht⟩ := generateSolution_some rng fuel t p h
  have hp := drawOperations_perm rng t'
  rw [steps_operations ht (by simpa using hp.length_eq)]
  exact hp

/-- The steps of a generated puzzle form a witness chain. -/
theorem steps_witness_of_generated {rng : Nat → Nat} {t fuel : Nat}
    {p : PuzzleDefinition} (h : generateSolution rng t fuel = some p) :
    StepsWitness p := by
  obtain ⟨t', ht⟩ := generateSolution_some rng fuel t p h
  obtain ⟨hnum, hl, h15, first, hfirst, hc⟩ := (tryCandidate_iff _ _ _).mp ht
  obtain ⟨s0, s1, s2, s3, hs, a0, b0, b1, b2, b3, _, _, _, _, a1, a2, a3,
    e0, e1, e2, e3, hfin⟩ := chain_four hl hc
  refine ⟨s0, s1, s2, s3, hs, ?_, ?_, ?_, ?_, ?_, a1, a2, a3, e0.1, e1.1, e2.1, e3.1,
    hfin, ?_, ?_, ?_⟩
  · rw [hnum, a0]; exact hfirst
  · rw [hnum]; exact b0
  · rw [hnum]; exact b1
  · rw [hnum]; exact b2
  · rw [hnum]; exact b3
  · intro st hst
    rw [hs] at hst
    simp only [List.mem_cons, List.mem_singleton, List.not_mem_nil, or_false] at hst
    rcases hst with rfl | rfl | rfl | rfl
    · exact e0.2
    · exact e1.2
    · exact e2.2
    · exact e3.2
  · rw [← hfin]; exact e3.2.1
  · rw [← hfin]; exact e3.2.2

/-- Claim C1: every puzzle `generateSolution` returns carries a valid witness
chain: four steps from `numbers[0]` through `numbers[1 .. 4]`, each result the
exact value of its operation and the first operand of the next step, the last
result equal to the target, and every result (the target included) a positive
integer at most 100. -/
theorem generateSolution_steps_witness (rng : Nat → Nat) (t fuel : Nat)
    (p : PuzzleDefinition) (h : generateSolution rng t fuel = some p) :
    StepsWitness p :=
  steps_witness_of_generated h

/-- Witness of C1: the puzzle generated from `sampleRng`. -/
theorem generateSolution_steps_witness_sample :
    generateSolution sampleRng 0 1 = some samplePuzzle ∧ StepsWitness samplePuzzle :=
  ⟨rfl, generateSolution_steps_witness sampleRng 0 1 samplePuzzle rfl⟩

/-- Counterexample to C3: in the puzzle generated from `sampleRng` the
operation `×` occurs in two of the four steps. -/
theorem generated_steps_repeat_operation :
    generateSolution sampleRng 0 1 = some samplePuzzle ∧
      ¬ (samplePuzzle.steps.map Step.operation).Nodup ∧
      (samplePuzzle.steps.map Step.operation).count "×" = 2 := by
  decide

/-- Claim C3, amended: among the four steps of every puzzle `generateSolution`
returns, `×` occurs exactly twice, `+` and `÷` exactly once each and `-` never;
so the list of the steps' operations always has a repetition. -/
theorem generated_steps_operation_counts (rng : Nat → Nat) (t fuel : Nat)
    (p : PuzzleDefinition) (h : generateSolution rng t fuel = some p) :
    p.steps.length = 4 ∧
      (p.steps.map Step.operation).count "×" = 2 ∧
      (p.steps.map Step.operation).count "+" = 1 ∧
      (p.steps.map Step.operation).count "÷" = 1 ∧
      (p.steps.map Step.operation).count "-" = 0 ∧
      ¬ (p.steps.map Step.operation).Nodup := by
  have hp := generated_operations_perm h
  refine ⟨by simpa using hp.length_eq, ?_, ?_, ?_, ?_, ?_⟩
  · rw [hp.count_eq]; decide
  · rw [hp.count_eq]; decide
  · rw [hp.count_eq]; decide
  · rw [hp.count_eq]; decide
  · rw [hp.nodup_iff]; decide

/-- Witness of the amended C3 on the puzzle generated from `sampleRng`. -/
theorem generated_steps_operation_counts_sample :
    generateSolution sampleRng 0 1 = some samplePuzzle ∧
      (samplePuzzle.steps.map Step.operation).count "×" = 2 :=
  ⟨rfl, (generated_steps_operation_counts sampleRng 0 1 samplePuzzle rfl).2.1⟩

/-- Claim C4: no step of a generated puzzle uses `-`; every `÷` step has a
non-zero second operand that divides the first exactly (remainder zero, and
result times second operand gives the first operand back); the operations of
the four steps, in order, are a permutation of `×, ×, +, ÷`. -/
theorem generated_steps_operations (rng : Nat → Nat) (t fuel : Nat)
    (p : PuzzleDefinition) (h : generateSolution rng t fuel = some p) :
    (∀ st ∈ p.steps, st.operation ≠ "-") ∧
      (∀ st ∈ p.steps, st.operation = "÷" →
        st.num2 ≠ 0 ∧ st.num1 % st.num2 = 0 ∧ Int.tmod st.num1 st.num2 = 0 ∧
          st.result * st.num2 = st.num1) ∧
      (p.steps.map Step.operation).Perm ["×", "×", "+", "÷"] := by
  have hp := generated_operations_perm h
  obtain ⟨s0, s1, s2, s3, hs, _, _, _, _, _, _, _, _, e0, e1, e2, e3, _⟩ :=
    steps_witness_of_generated h
  refine ⟨?_, ?_, hp⟩
  · intro st hst hop
    have hmem : "-" ∈ p.steps.map Step.operation :=
      List.mem_map.mpr ⟨st, hst, hop⟩
    have := hp.mem_iff.mp hmem
    exact absurd this (by decide)
  · intro st hst hop
    have hex : ExactValue st.operation st.num1 st.num2 st.result := by
      rw [hs] at hst
      simp only [List.mem_cons, List.mem_singleton, List.not_mem_nil, or_false] at hst
      rcases hst with rfl | rfl | rfl | rfl
      · exact e0
      · exact e1
      · exact e2
      · exact e3
    rw [hop] at hex
    rcases hex with ⟨e, _⟩ | ⟨e, _⟩ | ⟨e, _⟩ | ⟨_, hb, hr⟩
    · exact absurd e (by decide)
    · exact absurd e (by decide)
    · exact absurd e (by decide)
    · have hdvd : st.num2 ∣ st.num1 := ⟨st.result, by rw [← hr, Int.mul_comm]⟩
      exact ⟨hb, Int.emod_eq_zero_of_dvd hdvd, Int.tmod_eq_zero_of_dvd hdvd, hr⟩

/-- Witness of C4 on the puzzle generated from `sampleRng`. -/
theorem generated_steps_operations_sample :
    generateSolution sampleRng 0 1 = some samplePuzzle ∧
      (samplePuzzle.steps.map Step.operation).Perm ["×", "×", "+", "÷"] :=
  ⟨rfl, (generated_steps_operations sampleRng 0 1 samplePuzzle rfl).2.2⟩

/-- Claim C5: the acceptance test of the generator on one candidate is the
recipe of the spec: `tryCandidate` returns a puzzle with target `target`
exactly when the fold of the spec accepts the candidate with final result
`target`; a rejected candidate makes `generateSolution` draw the next one;
every returned target lies in `15 .. 100`; the two candidates of the spec's
scenarios are rejected, and the sample candidate is accepted. -/
theorem tryCandidate_refines_spec :
    (∀ (numbers : List Int) (operations : List String) (target : Int),
      (∃ p, tryCandidate numbers operations = some p ∧ p.target = target) ↔
        SpecAccepts numbers operations target) ∧
    (∀ (rng : Nat → Nat) (t fuel : Nat),
      tryCandidate (drawNumbers rng t) (drawOperations rng t) = none →
        generateSolution rng t (fuel + 1) = generateSolution rng (t + 11) fuel) ∧
    (∀ (rng : Nat → Nat) (t fuel : Nat) (p : PuzzleDefinition),
      generateSolution rng t fuel = some p → 15 ≤ p.target ∧ p.target ≤ 100) ∧
    tryCandidate [2, 3, 4, 1, 5, 6, 7, 8] ["×", "×", "+", "÷"] = none ∧
    tryCandidate [4, 2, 3, 1, 2, 5, 6, 7] ["×", "+", "×", "÷"] = none ∧
    tryCandidate [3, 3, 3, 1, 3, 3, 3, 3] ["×", "×", "÷", "+"] = some samplePuzzle := by
  refine ⟨?_, ?_, ?_, by decide, by decide, by decide⟩
  · intro numbers operations target
    constructor
    · rintro ⟨p, hp, rfl⟩
      obtain ⟨_, hl, h15, first, hfirst, hc⟩ := (tryCandidate_iff _ _ _).mp hp
      obtain ⟨s0, s1, s2, s3, _, a0, b0, b1, b2, b3, o0, o1, o2, o3, a1, a2, a3,
        e0, e1, e2, e3, hfin⟩ := chain_four hl hc
      refine ⟨first, s0.num2, s1.num2, s2.num2, s3.num2, s0.operation, s1.operation,
        s2.operation, s3.operation, s0.result, s1.result, s2.result, hfirst, b0, b1, b2, b3,
        o0, o1, o2, o3, a0 ▸ e0, a1 ▸ e1, a2 ▸ e2, ?_, h15⟩
      rw [← hfin]
      exact a3 ▸ e3
    · rintro ⟨n0, n1, n2, n3, n4, op0, op1, op2, op3, r1, r2, r3, h0, h1, h2, h3, h4,
        o0, o1, o2, o3, e0, e1, e2, e3, h15⟩
      refine ⟨⟨numbers, target,
        [⟨n0, n1, op0, r1⟩, ⟨r1, n2, op1, r2⟩, ⟨r2, n3, op2, r3⟩, ⟨r3, n4, op3, target⟩]⟩,
        ?_, rfl⟩
      apply (tryCandidate_iff _ _ _).mpr
      refine ⟨rfl, rfl, h15, n0, h0, ?_⟩
      exact ⟨rfl, h1, o0, e0.1, e0.2.1, e0.2.2, rfl, h2, o1, e1.1, e1.2.1, e1.2.2,
        rfl, h3, o2, e2.1, e2.2.1, e2.2.2, rfl, h4, o3, e3.1, e3.2.1, e3.2.2, rfl⟩
  · intro rng t fuel hnone
    rw [generateSolution, hnone]
  · intro rng t fuel p h
    obtain ⟨t', ht⟩ := generateSolution_some rng fuel t p h
    obtain ⟨_, hl, h15, first, _, hc⟩ := (tryCandidate_iff _ _ _).mp ht
    obtain ⟨s0, s1, s2, s3, _, _, _, _, _, _, _, _, _, _, _, _, _, _, _, _, e3, hfin⟩ :=
      chain_four hl hc
    exact ⟨h15, hfin ▸ e3.2.2⟩

/-! ## Move engine: lemmas -/

theorem symbol_mem (op : Operation) : op.symbol ∈ fourOperations := by
  cases op <;> decide

theorem calculateResult_some_mem {a b r : Int} {op : String}
    (h : calculateResult a b op = some r) : op ∈ fourOperations := by
  unfold calculateResult at h
  unfold fourOperations
  by_cases h1 : op = "+"
  · simp [h1]
  by_cases h2 : op = "-"
  · simp [h2]
  by_cases h3 : op = "×"
  · simp [h3]
  by_cases h4 : op = "÷"
  · simp [h4]
  simp [h1, h2, h3, h4] at h

theorem mem_four_ne_empty {op : String} (h : op ∈ fourOperations) : op ≠ "" := by
  intro he
  subst he
  exact absurd h (by decide)

/-- What `calculateResult` gives on each of the four operations. -/
theorem calculateResult_cases {a b r : Int} {op : String}
    (h : calculateResult a b op = some r) :
    (op = "+" ∧ r = a + b) ∨ (op = "-" ∧ b < a ∧ r = a - b) ∨ (op = "×" ∧ r = a * b) ∨
      (op = "÷" ∧ b ≠ 0 ∧ Int.tmod a b = 0 ∧ r = a / b) := by
  unfold calculateResult at h
  by_cases h1 : op = "+"
  · subst h1
    simp at h
    exact Or.inl ⟨rfl, h.symm⟩
  by_cases h2 : op = "-"
  · subst h2
    simp at h
    exact Or.inr (Or.inl ⟨rfl, h.1, h.2.symm⟩)
  by_cases h3 : op = "×"
  · subst h3
    simp at h
    exact Or.inr (Or.inr (Or.inl ⟨rfl, h.symm⟩))
  by_cases h4 : op = "÷"
  · subst h4
    simp at h
    exact Or.inr (Or.inr (Or.inr ⟨rfl, h.1.1, h.1.2, h.2.symm⟩))
  simp [h1, h2, h3, h4] at h

theorem exact_quotient_pos {a b : Int} (ha : 1 ≤ a) (hb : 1 ≤ b) (hm : Int.tmod a b = 0) :
    1 ≤ a / b ∧ a / b ≤ a := by
  have hdvd : b ∣ a := Int.dvd_of_tmod_eq_zero hm
  have hle : b ≤ a := Int.le_of_dvd (by omega) hdvd
  constructor
  · exact (Int.le_ediv_iff_mul_le (by omega)).mpr (by omega)
  · exact Int.ediv_le_self b (by omega)

/-- A valid move on positive operands gives a positive result. -/
theorem calculateResult_pos {a b r : Int} {op : String} (ha : 1 ≤ a) (hb : 1 ≤ b)
    (h : calculateResult a b op = some r) : 1 ≤ r := by
  rcases calculateResult_cases h with ⟨_, rfl⟩ | ⟨_, hlt, rfl⟩ | ⟨_, rfl⟩ | ⟨_, _, hm, rfl⟩
  · omega
  · omega
  · exact Int.mul_pos (by omega) (by omega)
  · exact (exact_quotient_pos ha hb hm).1

/-- The move branch of `handleNumberSelect`. -/
theorem handleNumberSelect_move {s : GameState} {j i : Nat} {a b r : Int} {op : String}
    (hj : s.numbers[j]? = some (some b)) (ha : s.currentAnchor = some ⟨a, i⟩)
    (ho : s.selectedOperation = some op) (hij : i ≠ j)
    (hc : calculateResult a b op = some r) :
    handleNumberSelect s j =
      (moveState s a i j b op r,
        if (setAdd s.usedOperations op).length = 4 then
          checkWinCondition (moveState s a i j b op r) r
        else Feedback.silent) := by
  have hne : op ≠ "" := mem_four_ne_empty (calculateResult_some_mem hc)
  unfold handleNumberSelect
  simp only [hj, ha, ho, hc]
  rw [if_pos ⟨hne, hij⟩]
  simp only [moveState]
  split <;> rfl

/-- The rejected-move branch of `handleNumberSelect`. -/
theorem handleNumberSelect_invalid {s : GameState} {j i : Nat} {a b : Int} {op : String}
    (hj : s.numbers[j]? = some (some b)) (ha : s.currentAnchor = some ⟨a, i⟩)
    (ho : s.selectedOperation = some op) (hne : op ≠ "") (hij : i ≠ j)
    (hc : calculateResult a b op = none) :
    handleNumberSelect s j = (s, Feedback.invalidOperation) := by
  unfold handleNumberSelect
  simp only [hj, ha, ho, hc]
  rw [if_pos ⟨hne, hij⟩]

/-- The first selection of `handleNumberSelect`. -/
theorem handleNumberSelect_first {s : GameState} {j : Nat} {b : Int}
    (hj : s.numbers[j]? = some (some b)) (ha : s.currentAnchor = none) :
    handleNumberSelect s j =
      ({ s with currentAnchor := some ⟨b, j⟩ }, Feedback.silent) := by
  unfold handleNumberSelect
  simp only [hj, ha]

/-- The four ways `handleNumberSelect` can end. -/
theorem handleNumberSelect_cases (s : GameState) (j : Nat) :
    handleNumberSelect s j = (s, Feedback.silent) ∨
    (∃ a i b op, s.numbers[j]? = some (some b) ∧ s.currentAnchor = some ⟨a, i⟩ ∧
      s.selectedOperation = some op ∧ op ≠ "" ∧ i ≠ j ∧ calculateResult a b op = none ∧
      handleNumberSelect s j = (s, Feedback.invalidOperation)) ∨
    (∃ b, s.numbers[j]? = some (some b) ∧ s.currentAnchor = none ∧
      handleNumberSelect s j = ({ s with currentAnchor := some ⟨b, j⟩ }, Feedback.silent)) ∨
    (∃ a i b op r, s.numbers[j]? = some (some b) ∧ s.currentAnchor = some ⟨a, i⟩ ∧
      s.selectedOperation = some op ∧ i ≠ j ∧ calculateResult a b op = some r ∧
      handleNumberSelect s j =
        (moveState s a i j b op r,
          if (setAdd s.usedOperations op).length = 4 then
            checkWinCondition (moveState s a i j b op r) r
          else Feedback.silent)) := by
  cases hj : s.numbers[j]? with
  | none => left; unfold handleNumberSelect; simp only [hj]
  | some x =>
    cases x with
    | none => left; unfold handleNumberSelect; simp only [hj]
    | some b =>
      cases ha : s.currentAnchor with
      | none => right; right; left; exact ⟨b, rfl, rfl, handleNumberSelect_first hj ha⟩
      | some anchor =>
        obtain ⟨a, i⟩ := anchor
        cases ho : s.selectedOperation with
        | none => left; unfold handleNumberSelect; simp only [hj, ha, ho]
        | some op =>
          by_cases hcond : op ≠ "" ∧ i ≠ j
          · cases hc : calculateResult a b op with
            | none =>
              right; left
              exact ⟨a, i, b, op, rfl, rfl, rfl, hcond.1, hcond.2, hc,
                handleNumberSelect_invalid hj ha ho hcond.1 hcond.2 hc⟩
            | some r =>
              right; right; right
              exact ⟨a, i, b, op, r, rfl, rfl, rfl, hcond.2, hc,
                handleNumberSelect_move hj ha ho hcond.2 hc⟩
          · left
            unfold handleNumberSelect
            simp only [hj, ha, ho]
            rw [if_neg hcond]

/-! ## Move engine: single moves -/

/-- The exact-arithmetic `calculateResult`, branch by branch. -/
theorem calculateResult_exact (a b : Int) :
    calculateResult a b "+" = some (a + b) ∧
    calculateResult a b "×" = some (a * b) ∧
    (b < a → calculateResult a b "-" = some (a - b)) ∧
    (¬ b < a → calculateResult a b "-" = none) ∧
    (b ≠ 0 → b ∣ a → ∃ q, q * b = a ∧ calculateResult a b "÷" = some q) ∧
    (¬ (b ≠ 0 ∧ b ∣ a) → calculateResult a b "÷" = none) ∧
    (∀ op, op ∉ fourOperations → calculateResult a b op = none) ∧
    calculateResult 10 15 Operation.Subtract.symbol = none ∧
    calculateResult 12 5 Operation.Divide.symbol = none := by
  refine ⟨by simp [calculateResult], by simp [calculateResult], ?_, ?_, ?_, ?_, ?_,
    by decide, by decide⟩
  · intro h
    simp [calculateResult, h]
  · intro h
    simp [calculateResult, h]
  · intro hb hdvd
    refine ⟨a / b, Int.ediv_mul_cancel hdvd, ?_⟩
    simp [calculateResult, hb, Int.tmod_eq_zero_of_dvd hdvd]
  · intro h
    have : ¬ (b ≠ 0 ∧ Int.tmod a b = 0) := fun hh => h ⟨hh.1, Int.dvd_of_tmod_eq_zero hh.2⟩
    simp only [calculateResult]
    rw [if_neg (by decide), if_neg (by decide), if_neg (by decide), if_pos trivial,
      if_neg this]
  · intro op hop
    cases hc : calculateResult a b op with
    | none => rfl
    | some r => exact absurd (calculateResult_some_mem hc) hop

/-! ### Double arithmetic and the safe integers -/

theorem log2Loop_spec : ∀ (fuel n : Nat), n ≤ fuel →
    (n ≠ 0 → 2 ^ log2Loop fuel n ≤ n) ∧ n < 2 ^ (log2Loop fuel n + 1) := by
  intro fuel
  induction fuel with
  | zero =>
    intro n hn
    have : n = 0 := by omega
    subst this
    simp [log2Loop]
  | succ fuel ih =>
    intro n hn
    rw [log2Loop]
    by_cases h2 : 2 ≤ n
    · rw [if_pos h2]
      obtain ⟨h1, h3⟩ := ih (n / 2) (by omega)
      have h1' := h1 (by omega)
      have e1 : 2 ^ (log2Loop fuel (n / 2) + 1) = 2 * 2 ^ log2Loop fuel (n / 2) := by
        rw [pow_succ]; ring
      have e2 : 2 ^ (log2Loop fuel (n / 2) + 1 + 1) =
          2 * 2 ^ (log2Loop fuel (n / 2) + 1) := by
        rw [pow_succ]; ring
      constructor
      · intro _
        rw [e1]
        omega
      · rw [e2]
        omega
    · rw [if_neg h2]
      constructor
      · intro h0; simp; omega
      · simp; omega

theorem log2Floor_le {n : Nat} (h : n ≠ 0) : 2 ^ log2Floor n ≤ n :=
  (log2Loop_spec n n (le_refl n)).1 h

theorem lt_log2Floor (n : Nat) : n < 2 ^ (log2Floor n + 1) :=
  (log2Loop_spec n n (le_refl n)).2

theorem exponentOf_le {p q : Nat} (hp : p ≠ 0) :
    scale q (exponentOf p q) ≤ scale p (-(exponentOf p q)) := by
  unfold exponentOf
  split
  · assumption
  · have h1 := log2Floor_le hp
    have h2 := lt_log2Floor q
    generalize log2Floor p = lp at *
    generalize log2Floor q = lq at *
    unfold scale
    by_cases hl : lq < lp
    · have e1 : ((lp : Int) - lq - 1).toNat = lp - lq - 1 := by omega
      have e2 : (-((lp : Int) - lq - 1)).toNat = 0 := by omega
      rw [e1, e2, pow_zero, Nat.mul_one]
      have e3 : 2 ^ lp = 2 ^ (lq + 1) * 2 ^ (lp - lq - 1) := by
        rw [← pow_add]; congr 1; omega
      calc q * 2 ^ (lp - lq - 1) ≤ 2 ^ (lq + 1) * 2 ^ (lp - lq - 1) :=
            Nat.mul_le_mul_right _ (le_of_lt h2)
        _ = 2 ^ lp := e3.symm
        _ ≤ p := h1
    · have e1 : ((lp : Int) - lq - 1).toNat = 0 := by omega
      have e2 : (-((lp : Int) - lq - 1)).toNat = lq - lp + 1 := by omega
      rw [e1, e2, pow_zero, Nat.mul_one]
      have e3 : 2 ^ (lq + 1) = 2 ^ lp * 2 ^ (lq - lp + 1) := by
        rw [← pow_add]; congr 1; omega
      calc q ≤ 2 ^ (lq + 1) := le_of_lt h2
        _ = 2 ^ lp * 2 ^ (lq - lp + 1) := e3
        _ ≤ p * 2 ^ (lq - lp + 1) := Nat.mul_le_mul_right _ h1

theorem roundHalfEven_bounds (n d : Nat) (hd : d ≠ 0) :
    2 * n ≤ 2 * (d * roundHalfEven n d) + d ∧ 2 * (d * roundHalfEven n d) ≤ 2 * n + d := by
  have hn := Nat.div_add_mod n d
  have hr := Nat.mod_lt n (Nat.pos_of_ne_zero hd)
  have hs : d * (n / d + 1) = d * (n / d) + d := Nat.mul_succ _ _
  unfold roundHalfEven
  split
  · omega
  · split
    · rw [hs]; omega
    · split
      · omega
      · rw [hs]; omega

theorem roundHalfEven_exact (n d : Nat) (hd : d ≠ 0) (h : n % d = 0) :
    roundHalfEven n d = n / d := by
  unfold roundHalfEven
  rw [h, if_pos (by omega)]

theorem exponentOf_le_52 {p q : Nat} (hp : p ≠ 0) (hq : q ≠ 0) (hs : p < 2 ^ 53) :
    exponentOf p q ≤ 52 := by
  by_contra hcon
  have h := exponentOf_le (q := q) hp
  generalize exponentOf p q = k at *
  unfold scale at h
  have e1 : (-k).toNat = 0 := by omega
  rw [e1, pow_zero, Nat.mul_one] at h
  have h53 : 2 ^ 53 ≤ 2 ^ k.toNat := Nat.pow_le_pow_right (by decide) (by omega)
  have : 2 ^ k.toNat ≤ q * 2 ^ k.toNat := Nat.le_mul_of_pos_left _ (Nat.pos_of_ne_zero hq)
  omega

/-- The shape of `nearestDouble` below `2 ^ 53`: the exponent is not positive. -/
theorem nearestDouble_small {p q : Nat} (hp : p ≠ 0) (hq : q ≠ 0) (hs : p < 2 ^ 53) :
    ∃ s : Nat, (-(exponentOf p q - 52)).toNat = s ∧ (exponentOf p q - 52).toNat = 0 ∧
      nearestDouble p q = (roundHalfEven (p * 2 ^ s) q, exponentOf p q - 52) ∧
      2 ^ 53 * scale p (-(exponentOf p q)) = p * 2 ^ (s + 1) * 2 ^ (exponentOf p q).toNat := by
  have hk := exponentOf_le_52 hp hq hs
  refine ⟨(-(exponentOf p q - 52)).toNat, rfl, by omega, ?_, ?_⟩
  · unfold nearestDouble
    rw [if_neg hp]
    have e0 : (exponentOf p q - 52).toNat = 0 := by omega
    simp only [scale, e0, pow_zero, Nat.mul_one]
  · generalize exponentOf p q = k at *
    unfold scale
    by_cases h0 : 0 ≤ k
    · have e1 : (-k).toNat = 0 := by omega
      have e2 : (-(k - 52)).toNat + 1 + k.toNat = 53 := by omega
      rw [e1, pow_zero, Nat.mul_one, Nat.mul_assoc, ← pow_add, e2, Nat.mul_comm]
    · have e1 : k.toNat = 0 := by omega
      have e2 : (-(k - 52)).toNat + 1 = 53 + (-k).toNat := by omega
      rw [e1, pow_zero, Nat.mul_one, e2, pow_add]
      ring

theorem nearestDouble_dvd {p q : Nat} (hq : q ≠ 0) (hs : p < 2 ^ 53) (hd : q ∣ p) :
    isIntegerDouble (nearestDouble p q) = true ∧ integerValue (nearestDouble p q) = p / q := by
  by_cases hp : p = 0
  · subst hp
    simp [nearestDouble, isIntegerDouble, integerValue]
  · obtain ⟨s, hs1, hs2, hnd, _⟩ := nearestDouble_small hp hq hs
    obtain ⟨c, rfl⟩ := hd
    have hmod : (q * c * 2 ^ s) % q = 0 := by
      rw [Nat.mul_assoc]; exact Nat.mul_mod_right _ _
    have hm : roundHalfEven (q * c * 2 ^ s) q = c * 2 ^ s := by
      rw [roundHalfEven_exact _ _ hq hmod, Nat.mul_assoc,
        Nat.mul_div_cancel_left _ (Nat.pos_of_ne_zero hq)]
    rw [hnd, hm]
    constructor
    · simp only [isIntegerDouble, hs1, decide_eq_true_eq]
      exact Dvd.intro_left c rfl
    · simp only [integerValue, hs1, hs2, pow_zero, Nat.mul_one]
      rw [Nat.mul_div_cancel _ (Nat.pos_pow_of_pos s (by decide)),
        Nat.mul_div_cancel_left _ (Nat.pos_of_ne_zero hq)]

theorem nearestDouble_not_dvd {p q : Nat} (hq : q ≠ 0) (hs : p < 2 ^ 53) (hd : ¬ q ∣ p) :
    isIntegerDouble (nearestDouble p q) = false := by
  have hp : p ≠ 0 := by
    intro h0; subst h0; exact hd (dvd_zero q)
  obtain ⟨s, hs1, hs2, hnd, hpow⟩ := nearestDouble_small hp hq hs
  have hF := exponentOf_le (q := q) hp
  rw [hnd]
  simp only [isIntegerDouble, hs1, decide_eq_false_iff_not]
  rintro ⟨t, ht⟩
  obtain ⟨hb1, hb2⟩ := roundHalfEven_bounds (p * 2 ^ s) q hq
  rw [ht] at hb1 hb2
  -- with X = 2 ^ (s + 1): X * p ≤ X * (q * t) + q and X * (q * t) ≤ X * p + q
  have hX : 2 ^ (s + 1) = 2 * 2 ^ s := by rw [pow_succ]; ring
  have h1 : 2 ^ (s + 1) * p ≤ 2 ^ (s + 1) * (q * t) + q := by
    calc 2 ^ (s + 1) * p = 2 * (p * 2 ^ s) := by rw [hX]; ring
      _ ≤ 2 * (q * (2 ^ s * t)) + q := hb1
      _ = 2 ^ (s + 1) * (q * t) + q := by rw [hX]; ring
  have h2 : 2 ^ (s + 1) * (q * t) ≤ 2 ^ (s + 1) * p + q := by
    calc 2 ^ (s + 1) * (q * t) = 2 * (q * (2 ^ s * t)) := by rw [hX]; ring
      _ ≤ 2 * (p * 2 ^ s) + q := hb2
      _ = 2 ^ (s + 1) * p + q := by rw [hX]; ring
  have hne : p ≠ q * t := by
    intro h; exact hd ⟨t, h⟩
  have hXq : 2 ^ (s + 1) ≤ q := by
    rcases Nat.lt_or_gt_of_ne hne with hlt | hgt
    · have : 2 ^ (s + 1) * (p + 1) ≤ 2 ^ (s + 1) * (q * t) := Nat.mul_le_mul_left _ hlt
      rw [Nat.mul_succ] at this
      omega
    · have : 2 ^ (s + 1) * (q * t + 1) ≤ 2 ^ (s + 1) * p := Nat.mul_le_mul_left _ hgt
      rw [Nat.mul_succ] at this
      omega
  -- 2 ^ 53 * p' ≤ p * X * 2 ^ k ≤ p * (q * 2 ^ k) ≤ p * p'
  have h3 : p * 2 ^ (s + 1) * 2 ^ (exponentOf p q).toNat ≤
      p * (scale q (exponentOf p q)) := by
    rw [Nat.mul_assoc]
    exact Nat.mul_le_mul_left _ (Nat.mul_le_mul_right _ hXq)
  have h4 : p * scale q (exponentOf p q) ≤ p * scale p (-(exponentOf p q)) :=
    Nat.mul_le_mul_left _ hF
  have h5 : 2 ^ 53 * scale p (-(exponentOf p q)) ≤ p * scale p (-(exponentOf p q)) := by
    rw [hpow]; exact le_trans h3 h4
  have hpos : 0 < scale p (-(exponentOf p q)) := by
    unfold scale
    exact Nat.mul_pos (Nat.pos_of_ne_zero hp) (Nat.pos_pow_of_pos _ (by decide))
  have := Nat.le_of_mul_le_mul_right h5 hpos
  omega

theorem roundNumber_safe {n : Int} (h : n.natAbs < 2 ^ 53) : roundNumber n = n := by
  unfold roundNumber
  rw [(nearestDouble_dvd one_ne_zero h (one_dvd _)).2, Nat.div_one]
  exact Int.sign_mul_natAbs n

theorem sign_mul_sign_self {b : Int} (hb : b ≠ 0) : b.sign * b.sign = 1 := by
  rcases lt_trichotomy b 0 with h | h | h
  · rw [Int.sign_eq_neg_one_of_neg h]; rfl
  · exact absurd h hb
  · rw [Int.sign_eq_one_of_pos h]; rfl

theorem quotient_safe {a b : Int} (ha : a.natAbs < 2 ^ 53) (hb : b ≠ 0) (hd : b ∣ a) :
    isIntegerDouble (nearestDouble a.natAbs b.natAbs) = true ∧
      a.sign * b.sign * (integerValue (nearestDouble a.natAbs b.natAbs) : Nat) = a / b := by
  have hq : b.natAbs ≠ 0 := Int.natAbs_ne_zero.mpr hb
  have hdn : b.natAbs ∣ a.natAbs := Int.natAbs_dvd_natAbs.mpr hd
  obtain ⟨h1, h2⟩ := nearestDouble_dvd hq ha hdn
  refine ⟨h1, ?_⟩
  rw [h2]
  obtain ⟨c, rfl⟩ := hd
  rw [Int.natAbs_mul, Nat.mul_div_cancel_left _ (Nat.pos_of_ne_zero hq),
    Int.mul_ediv_cancel_left _ hb, Int.sign_mul]
  calc b.sign * c.sign * b.sign * (c.natAbs : Int)
      = (b.sign * b.sign) * (c.sign * (c.natAbs : Int)) := by ring
    _ = c := by rw [sign_mul_sign_self hb, Int.sign_mul_natAbs, Int.one_mul]

theorem quotient_not_integer {a b : Int} (ha : a.natAbs < 2 ^ 53) (hb : b ≠ 0)
    (hd : ¬ b ∣ a) : isIntegerDouble (nearestDouble a.natAbs b.natAbs) = false :=
  nearestDouble_not_dvd (Int.natAbs_ne_zero.mpr hb) ha
    (fun h => hd (Int.natAbs_dvd_natAbs.mp h))

/-- On safe integers with a safe result the double arithmetic of
`calculateResult` is the exact integer arithmetic. -/
theorem calculateResultDouble_eq (a b : Int) (op : String) (ha : a.natAbs < 2 ^ 53)
    (hr : ∀ r, calculateResult a b op = some r → r.natAbs < 2 ^ 53) :
    calculateResultDouble a b op = calculateResult a b op := by
  by_cases h1 : op = "+"
  · subst h1
    have hr' := hr (a + b) (by simp [calculateResult])
    simp [calculateResultDouble, calculateResult, roundNumber_safe hr']
  by_cases h2 : op = "-"
  · subst h2
    by_cases hlt : b < a
    · have hr' := hr (a - b) (by simp [calculateResult, hlt])
      simp [calculateResultDouble, calculateResult, hlt, roundNumber_safe hr']
    · simp [calculateResultDouble, calculateResult, hlt]
  by_cases h3 : op = "×"
  · subst h3
    have hr' := hr (a * b) (by simp [calculateResult])
    simp [calculateResultDouble, calculateResult, roundNumber_safe hr']
  by_cases h4 : op = "÷"
  · subst h4
    by_cases hb : b = 0
    · simp [calculateResultDouble, calculateResult, hb]
    · by_cases hd : b ∣ a
      · obtain ⟨q1, q2⟩ := quotient_safe ha hb hd
        simp [calculateResultDouble, calculateResult, hb, q1, q2,
          Int.tmod_eq_zero_of_dvd hd]
      · have q1 := quotient_not_integer ha hb hd
        have q3 : ¬ Int.tmod a b = 0 := fun h => hd (Int.dvd_of_tmod_eq_zero h)
        simp [calculateResultDouble, calculateResult, hb, q1, q3]
  simp [calculateResultDouble, calculateResult, h1, h2, h3, h4]

/-- Counterexample to C6: `3` does not divide `10 ^ 17`, yet the quotient
rounds to the integer double 33333333333333332, which `calculateResult`
returns as a valid result; and `2 ^ 53 + 1` is computed as `2 ^ 53`. -/
theorem calculateResult_rounds_quotient :
    ¬ ((3 : Int) ∣ 100000000000000000) ∧
    calculateResultDouble 100000000000000000 3 "÷" = some 33333333333333332 ∧
    calculateResultDouble 9007199254740992 1 "+" = some 9007199254740992 ∧
    (9007199254740992 : Int) + 1 ≠ 9007199254740992 := by
  decide

/-- Claim C6, amended: `calculateResult` is the move arithmetic on safe integers
(magnitude below `2 ^ 53`).  For safe `a` and `b`: `+` gives the sum and `×` the
product when that value is safe; `-` gives the difference when `a > b` (the
value being safe) and nothing otherwise; `÷` gives the exact quotient when
`b ≠ 0` divides `a` and nothing otherwise; any other operation gives nothing.
`10 - 15` and `12 ÷ 5` are invalid. -/
theorem calculateResult_safe_spec (a b : Int) (ha : a.natAbs < 2 ^ 53)
    (_hb : b.natAbs < 2 ^ 53) :
    ((a + b).natAbs < 2 ^ 53 → calculateResultDouble a b "+" = some (a + b)) ∧
    ((a * b).natAbs < 2 ^ 53 → calculateResultDouble a b "×" = some (a * b)) ∧
    (b < a → (a - b).natAbs < 2 ^ 53 → calculateResultDouble a b "-" = some (a - b)) ∧
    (¬ b < a → calculateResultDouble a b "-" = none) ∧
    (b ≠ 0 → b ∣ a → ∃ q, q * b = a ∧ calculateResultDouble a b "÷" = some q) ∧
    (¬ (b ≠ 0 ∧ b ∣ a) → calculateResultDouble a b "÷" = none) ∧
    (∀ op, op ∉ fourOperations → calculateResultDouble a b op = none) ∧
    calculateResultDouble 10 15 Operation.Subtract.symbol = none ∧
    calculateResultDouble 12 5 Operation.Divide.symbol = none := by
  refine ⟨?_, ?_, ?_, ?_, ?_, ?_, ?_, by decide, by decide⟩
  · intro h
    simp [calculateResultDouble, roundNumber_safe h]
  · intro h
    simp [calculateResultDouble, roundNumber_safe h]
  · intro hlt h
    simp [calculateResultDouble, hlt, roundNumber_safe h]
  · intro hlt
    simp [calculateResultDouble, hlt]
  · intro hb hd
    obtain ⟨q1, q2⟩ := quotient_safe ha hb hd
    refine ⟨a / b, Int.ediv_mul_cancel hd, ?_⟩
    simp [calculateResultDouble, hb, q1, q2]
  · intro h
    by_cases hb : b = 0
    · simp [calculateResultDouble, hb]
    · have q1 := quotient_not_integer ha hb (fun hd => h ⟨hb, hd⟩)
      simp [calculateResultDouble, q1]
  · intro op hop
    simp only [fourOperations, List.mem_cons, List.mem_singleton, List.not_mem_nil,
      or_false, not_or] at hop
    simp [calculateResultDouble, hop.1, hop.2.1, hop.2.2.1, hop.2.2.2]

/-- Witness of the amended C6: `12 ÷ 4` and `6 × 7`. -/
theorem calculateResult_safe_spec_sample :
    calculateResultDouble 6 7 "×" = some 42 ∧
      ∃ q : Int, q * 4 = 12 ∧ calculateResultDouble 12 4 "÷" = some q :=
  ⟨(calculateResult_safe_spec 6 7 (by decide) (by decide)).2.1 (by decide),
    (calculateResult_safe_spec 12 4 (by decide) (by decide)).2.2.2.2.1 (by decide)
      (by decide)⟩

/-- Counterexample to C7: with anchor value 81, `×` selected and a slot holding
9, `handleNumberSelect` raises no error and applies the move with result 729;
and in the puzzle generated from `bigRng` the player reaches 162 in two moves,
which the history records. -/
theorem move_above_hundred_applied :
    handleNumberSelect (pendingState 81 9 "×") 1 =
      (moveState (pendingState 81 9 "×") 81 0 1 9 "×" 729, Feedback.silent) ∧
    (handleNumberSelect (pendingState 81 9 "×") 1).1.history = [⟨81, 9, "×", 729⟩] ∧
    generateSolution bigRng 0 1 = some bigPuzzle ∧
    feedbacks (initGameWith bigPuzzle).gameState
      [.selectNumber 0, .selectOperation .Add, .selectNumber 2,
        .selectOperation .Multiply, .selectNumber 3] =
      [.silent, .silent, .silent, .silent, .silent] ∧
    (run (initGameWith bigPuzzle).gameState
      [.selectNumber 0, .selectOperation .Add, .selectNumber 2,
        .selectOperation .Multiply, .selectNumber 3]).history =
      [⟨9, 9, "+", 18⟩, ⟨18, 9, "×", 162⟩] := by
  decide

/-- Claim C7, amended: in a state with an anchor and a selected operation, the
selection of another slot holding `b` is an invalid move exactly when
`calculateResult` gives nothing, and the state is then unchanged; whenever
`calculateResult` gives `r`, however large, the move is applied and recorded in
the history; with positive operands the recorded result is at least 1. -/
theorem invalid_move_iff (s : GameState) (j i : Nat) (a b : Int) (op : String)
    (ha : s.currentAnchor = some ⟨a, i⟩) (ho : s.selectedOperation = some op)
    (hne : op ≠ "") (hj : s.numbers[j]? = some (some b)) (hij : i ≠ j) :
    ((handleNumberSelect s j).2 = Feedback.invalidOperation ↔
      calculateResult a b op = none) ∧
    (calculateResult a b op = none → (handleNumberSelect s j).1 = s) ∧
    (∀ r, calculateResult a b op = some r →
      (handleNumberSelect s j).2 ≠ Feedback.invalidOperation ∧
      (handleNumberSelect s j).1.history = s.history ++ [⟨a, b, op, r⟩] ∧
      (1 ≤ a → 1 ≤ b → 1 ≤ r)) := by
  cases hc : calculateResult a b op with
  | none =>
    rw [handleNumberSelect_invalid hj ha ho hne hij hc]
    simp
  | some r =>
    rw [handleNumberSelect_move hj ha ho hij hc]
    have hfb : (if (setAdd s.usedOperations op).length = 4 then
        checkWinCondition (moveState s a i j b op r) r
        else Feedback.silent) ≠ Feedback.invalidOperation := by
      unfold checkWinCondition
      split
      · split <;> simp
      · simp
    refine ⟨by simpa using hfb, by simp, ?_⟩
    intro r' hr'
    simp only [Option.some.injEq] at hr'
    subst hr'
    exact ⟨hfb, rfl, fun h1 h2 => calculateResult_pos h1 h2 hc⟩

/-- Witness of the amended C7: 81 × 9. -/
theorem invalid_move_iff_sample :
    (handleNumberSelect (pendingState 81 9 "×") 1).2 ≠ Feedback.invalidOperation ∧
      (handleNumberSelect (pendingState 81 9 "×") 1).1.history =
        (pendingState 81 9 "×").history ++ [⟨81, 9, "×", 729⟩] :=
  have h := (invalid_move_iff (pendingState 81 9 "×") 1 0 81 9 "×" rfl rfl (by decide) rfl
    (by decide)).2.2 729 (by decide)
  ⟨h.1, h.2.1⟩

/-- Claim C8: an invalid move is atomic.  In a state with an anchor and a
selected operation, the selection of another slot whose value makes
`calculateResult` invalid raises the error and returns the state unchanged in
every field, so the operation stays selected. -/
theorem invalid_move_atomic (s : GameState) (j i : Nat) (a b : Int) (op : String)
    (ha : s.currentAnchor = some ⟨a, i⟩) (ho : s.selectedOperation = some op)
    (hne : op ≠ "") (hj : s.numbers[j]? = some (some b)) (hij : j ≠ i)
    (hc : calculateResult a b op = none) :
    handleNumberSelect s j = (s, Feedback.invalidOperation) :=
  handleNumberSelect_invalid hj ha ho hne (Ne.symm hij) hc

/-- Witness of C8: anchor value 10, `-` selected, slot value 15. -/
theorem invalid_move_atomic_sample :
    calculateResult 10 15 "-" = none ∧
      handleNumberSelect (pendingState 10 15 "-") 1 =
        (pendingState 10 15 "-", Feedback.invalidOperation) :=
  ⟨by decide,
    invalid_move_atomic (pendingState 10 15 "-") 1 0 10 15 "-" rfl rfl (by decide) rfl
      (by decide) (by decide)⟩

/-- Claim C9: effect of a valid move.  With anchor `{ value: a, index: i }`,
selected operation `op` and another slot `j` holding `b`, when
`calculateResult a b op` is `r` the new state has `r` in slot `i`, slot `j`
empty, every other slot as before, the history extended by `{a, b, op, r}`,
`op` added to the used operations, the anchor at `{ value: r, index: i }`, no
selected operation, and the same target. -/
theorem valid_move_effect (s : GameState) (j i : Nat) (a b r : Int) (op : String)
    (ha : s.currentAnchor = some ⟨a, i⟩) (ho : s.selectedOperation = some op)
    (hi : i < s.numbers.length) (hj : s.numbers[j]? = some (some b)) (hij : j ≠ i)
    (hc : calculateResult a b op = some r) :
    (handleNumberSelect s j).1.numbers[i]? = some (some r) ∧
    (handleNumberSelect s j).1.numbers[j]? = some none ∧
    (∀ k, k ≠ i → k ≠ j → (handleNumberSelect s j).1.numbers[k]? = s.numbers[k]?) ∧
    (handleNumberSelect s j).1.numbers.length = s.numbers.length ∧
    (handleNumberSelect s j).1.history = s.history ++ [⟨a, b, op, r⟩] ∧
    (∀ x, x ∈ (handleNumberSelect s j).1.usedOperations ↔ x ∈ s.usedOperations ∨ x = op) ∧
    (handleNumberSelect s j).1.currentAnchor = some ⟨r, i⟩ ∧
    (handleNumberSelect s j).1.selectedOperation = none ∧
    (handleNumberSelect s j).1.target = s.target := by
  rw [handleNumberSelect_move hj ha ho (Ne.symm hij) hc]
  have hjl : j < s.numbers.length := by
    by_contra hcon
    rw [List.getElem?_eq_none (by omega)] at hj
    exact absurd hj (by simp)
  refine ⟨?_, ?_, ?_, by simp [moveState], rfl, ?_, rfl, rfl, rfl⟩
  · simp [moveState, List.getElem?_set, hij, hi]
  · simp [moveState, List.getElem?_set, hjl]
  · intro k hki hkj
    simp [moveState, List.getElem?_set, Ne.symm hki, Ne.symm hkj]
  · intro x
    simp only [moveState, setAdd]
    split
    · constructor
      · intro h; exact Or.inl h
      · rintro (h | h)
        · exact h
        · subst h; assumption
    · simp

/-- Witness of C9: anchor value 6, `×` selected, slot value 7. -/
theorem valid_move_effect_sample :
    calculateResult 6 7 "×" = some 42 ∧
      (handleNumberSelect (pendingState 6 7 "×") 1).1.numbers[0]? = some (some 42) ∧
      (handleNumberSelect (pendingState 6 7 "×") 1).1.numbers[1]? = some none :=
  have h := valid_move_effect (pendingState 6 7 "×") 1 0 6 7 42 "×" rfl rfl (by decide) rfl
    (by decide) (by decide)
  ⟨by decide, h.1, h.2.1⟩

/-! ## Move engine: invariants of an attempt -/

theorem inv_fresh (numbers : List (Option Int)) (target : Int) :
    Inv (freshState numbers target) where
  used_eq := rfl
  nodup := List.nodup_nil
  used_sub := by intro x hx; simp [freshState] at hx
  selected := by intro op h; simp [freshState] at h
  anchor_slot := by intro a i h; simp [freshState] at h
  no_anchor := fun _ => rfl
  chained := List.chain'_nil
  last := by intro e h; simp [freshState] at h
  exact := by intro e h; simp [freshState] at h

theorem index_lt_of_getElem? {α : Type} {l : List α} {i : Nat} {x : α}
    (h : l[i]? = some x) : i < l.length := by
  by_contra hcon
  rw [List.getElem?_eq_none (by omega)] at h
  exact absurd h (by simp)

theorem inv_move {s : GameState} {j i : Nat} {a b r : Int} {op : String} (h : Inv s)
    (ha : s.currentAnchor = some ⟨a, i⟩) (ho : s.selectedOperation = some op)
    (hij : i ≠ j) (hc : calculateResult a b op = some r) :
    Inv (moveState s a i j b op r) := by
  obtain ⟨hnot, hmem, _⟩ := h.selected op ho
  have hadd : setAdd s.usedOperations op = s.usedOperations ++ [op] := by
    simp [setAdd, hnot]
  have hi : i < s.numbers.length := index_lt_of_getElem? (h.anchor_slot a i ha)
  constructor
  · simp only [moveState, hadd, List.map_append, List.map_cons, List.map_nil]
    rw [h.used_eq]
  · simp only [moveState, hadd]
    exact List.Nodup.append h.nodup (List.nodup_singleton op) (by simpa using hnot)
  · intro x hx
    simp only [moveState, hadd, List.mem_append, List.mem_singleton] at hx
    rcases hx with hx | rfl
    · exact h.used_sub x hx
    · exact hmem
  · intro op' h'
    simp [moveState] at h'
  · intro a' i' h'
    simp only [moveState, Option.some.injEq, Anchor.mk.injEq] at h'
    obtain ⟨rfl, rfl⟩ := h'
    simp [moveState, List.getElem?_set, Ne.symm hij, hi]
  · intro h'
    simp [moveState] at h'
  · simp only [moveState, Chained]
    rw [List.chain'_append]
    refine ⟨h.chained, List.chain'_singleton _, ?_⟩
    intro x hx y hy
    simp only [List.head?_cons, Option.mem_def, Option.some.injEq] at hy
    subst hy
    obtain ⟨i', hi'⟩ := h.last x hx
    rw [ha] at hi'
    simp only [Option.some.injEq, Anchor.mk.injEq] at hi'
    exact hi'.1
  · intro e he
    simp only [moveState, List.getLast?_concat, Option.some.injEq] at he
    subst he
    exact ⟨i, rfl⟩
  · intro e he
    simp only [moveState, List.mem_append, List.mem_singleton] at he
    rcases he with he | rfl
    · exact h.exact e he
    · exact hc

theorem inv_first {s : GameState} {j : Nat} {b : Int} (h : Inv s)
    (hj : s.numbers[j]? = some (some b)) (ha : s.currentAnchor = none) :
    Inv { s with currentAnchor := some ⟨b, j⟩ } where
  used_eq := h.used_eq
  nodup := h.nodup
  used_sub := h.used_sub
  selected := by
    intro op ho
    exact absurd ha (h.selected op ho).2.2
  anchor_slot := by
    intro a i h'
    simp only [Option.some.injEq, Anchor.mk.injEq] at h'
    obtain ⟨rfl, rfl⟩ := h'
    exact hj
  no_anchor := by intro h'; simp at h'
  chained := h.chained
  last := by
    intro e he
    have hnil : s.history = [] := h.no_anchor ha
    simp only [hnil] at he
    simp at he
  exact := h.exact

theorem inv_handleNumberSelect {s : GameState} (h : Inv s) (j : Nat) :
    Inv (handleNumberSelect s j).1 := by
  rcases handleNumberSelect_cases s j with he | ⟨_, _, _, _, _, _, _, _, _, _, he⟩ |
    ⟨b, hj, ha, he⟩ | ⟨a, i, b, op, r, hj, ha, ho, hij, hc, he⟩
  · rw [he]; exact h
  · rw [he]; exact h
  · rw [he]; exact inv_first h hj ha
  · rw [he]; exact inv_move h ha ho hij hc

theorem inv_handleOperationSelect {s : GameState} (h : Inv s) (op : Operation) :
    Inv (handleOperationSelect s op.symbol) := by
  unfold handleOperationSelect
  split
  · exact h
  · rename_i hcond
    simp only [not_or] at hcond
    exact
      { used_eq := h.used_eq
        nodup := h.nodup
        used_sub := h.used_sub
        selected := by
          intro op' h'
          simp only [Option.some.injEq] at h'
          subst h'
          exact ⟨hcond.2, symbol_mem op, hcond.1⟩
        anchor_slot := h.anchor_slot
        no_anchor := h.no_anchor
        chained := h.chained
        last := h.last
        exact := h.exact }

theorem inv_step {s : GameState} (h : Inv s) (a : Action) : Inv (step s a).1 := by
  cases a with
  | selectNumber j => exact inv_handleNumberSelect h j
  | selectOperation op => exact inv_handleOperationSelect h op

theorem inv_reachable {numbers : List (Option Int)} {target : Int} {s : GameState}
    (h : Reachable (freshState numbers target) s) : Inv s := by
  induction h with
  | start => exact inv_fresh numbers target
  | next a _ _ ih => exact inv_step ih a

/-- A list of distinct operation strings among the four has at most four
entries. -/
theorem used_length_le {l : List String} (hn : l.Nodup) (hs : ∀ x ∈ l, x ∈ fourOperations) :
    l.length ≤ 4 :=
  (List.subperm_of_subset hn hs).length_le

theorem reachable_run {s0 s : GameState} (h : Reachable s0 s) :
    ∀ actions, ClicksInGrid s actions → Reachable s0 (run s actions) := by
  intro actions
  induction actions generalizing s with
  | nil => intro _; exact h
  | cons a rest ih =>
    intro hc
    exact ih (Reachable.next a h hc.1) hc.2

theorem target_step (s : GameState) (a : Action) : (step s a).1.target = s.target := by
  cases a with
  | selectNumber j =>
    rcases handleNumberSelect_cases s j with he | ⟨_, _, _, _, _, _, _, _, _, _, he⟩ |
      ⟨b, _, _, he⟩ | ⟨a, i, b, op, r, _, _, _, _, _, he⟩ <;>
    (simp only [step, he]; try rfl)
  | selectOperation op =>
    simp only [step, handleOperationSelect]
    split <;> rfl

theorem target_reachable {s0 s : GameState} (h : Reachable s0 s) : s.target = s0.target := by
  induction h with
  | start => rfl
  | next a _ _ ih => rw [target_step, ih]

theorem sample_start_eq : (initGameWith samplePuzzle).gameState = sampleStart := rfl

/-- The state `initGame` builds is fresh. -/
theorem initGameWith_fresh (p : PuzzleDefinition) :
    (initGameWith p).gameState =
      freshState ((p.numbers ++ p.numbers.head?.toList).map some) p.target := rfl

/-- The state `resetPuzzle` builds is fresh. -/
theorem resetPuzzle_fresh (w : World) :
    (resetPuzzle w).gameState =
      freshState (w.initialNumbers.map some) w.gameState.target := rfl

theorem sample_game_reachable : Reachable sampleStart (run sampleStart sampleGame) :=
  reachable_run Reachable.start sampleGame (by decide)

/-- Claim C10: single use of the operations as an invariant.  In every state
reachable from a fresh state, no operation appears twice in the history, the
used operations are the operations of the history (in the same order), and so
the number of used operations is the length of the history, at most 4. -/
theorem single_use_invariant (numbers : List (Option Int)) (target : Int) (s : GameState)
    (h : Reachable (freshState numbers target) s) :
    (s.history.map Step.operation).Nodup ∧
    s.usedOperations = s.history.map Step.operation ∧
    (∀ x, x ∈ s.usedOperations ↔ ∃ e ∈ s.history, e.operation = x) ∧
    s.usedOperations.length = s.history.length ∧
    s.history.length ≤ 4 := by
  have hi := inv_reachable h
  have hlen : s.usedOperations.length = s.history.length := by
    rw [hi.used_eq, List.length_map]
  refine ⟨hi.used_eq ▸ hi.nodup, hi.used_eq, ?_, hlen, ?_⟩
  · intro x
    rw [hi.used_eq, List.mem_map]
  · rw [← hlen]
    exact used_length_le hi.nodup hi.used_sub

/-- Witness of C10: the state after the full attempt `sampleGame`. -/
theorem single_use_invariant_sample :
    Reachable sampleStart (run sampleStart sampleGame) ∧
      (run sampleStart sampleGame).usedOperations.length =
        (run sampleStart sampleGame).history.length ∧
      (run sampleStart sampleGame).history.length ≤ 4 :=
  have h := single_use_invariant _ 30 (run sampleStart sampleGame) sample_game_reachable
  ⟨sample_game_reachable, h.2.2.2.1, h.2.2.2.2⟩

/-- An action either leaves the used operations and the history as they are
and reports no outcome, or applies a move with a fresh operation. -/
theorem step_shape {s : GameState} (h : Inv s) (a : Action) :
    ((step s a).1.usedOperations = s.usedOperations ∧ (step s a).1.history = s.history ∧
      (step s a).2.isOutcome = false ∧
      ((step s a).1.currentAnchor = s.currentAnchor ∨ s.currentAnchor = none)) ∨
    (∃ x i j b op r, a = .selectNumber j ∧ s.currentAnchor = some ⟨x, i⟩ ∧
      s.selectedOperation = some op ∧ s.numbers[j]? = some (some b) ∧ i ≠ j ∧
      calculateResult x b op = some r ∧ op ∉ s.usedOperations ∧
      (step s a).1 = moveState s x i j b op r ∧
      (step s a).1.usedOperations = s.usedOperations ++ [op] ∧
      (step s a).1.history = s.history ++ [⟨x, b, op, r⟩] ∧
      (step s a).2 =
        if s.usedOperations.length + 1 = 4 then
          (if r = s.target then Feedback.win else Feedback.gameOver s.target)
        else Feedback.silent) := by
  cases a with
  | selectOperation op =>
    left
    simp only [step, handleOperationSelect]
    split
    · exact ⟨rfl, rfl, rfl, Or.inl rfl⟩
    · exact ⟨rfl, rfl, rfl, Or.inl rfl⟩
  | selectNumber j =>
    rcases handleNumberSelect_cases s j with he | ⟨_, _, _, _, _, _, _, _, _, _, he⟩ |
      ⟨b, _, ha, he⟩ | ⟨x, i, b, op, r, hj, ha, ho, hij, hc, he⟩
    · left
      rw [show step s (.selectNumber j) = handleNumberSelect s j from rfl, he]
      exact ⟨rfl, rfl, rfl, Or.inl rfl⟩
    · left
      rw [show step s (.selectNumber j) = handleNumberSelect s j from rfl, he]
      exact ⟨rfl, rfl, rfl, Or.inl rfl⟩
    · left
      rw [show step s (.selectNumber j) = handleNumberSelect s j from rfl, he]
      exact ⟨rfl, rfl, rfl, Or.inr ha⟩
    · right
      have hnot := (h.selected op ho).1
      have hadd : setAdd s.usedOperations op = s.usedOperations ++ [op] := by
        simp [setAdd, hnot]
      refine ⟨x, i, j, b, op, r, rfl, ha, ho, hj, hij, hc, hnot, ?_, ?_, ?_, ?_⟩
      · simp only [step, he]
      · simp only [step, he, moveState, hadd]
      · simp only [step, he, moveState]
      · simp only [step, he, hadd, List.length_append, List.length_singleton,
          checkWinCondition, moveState]

theorem used_full {s : GameState} (h : Inv s) (h4 : s.usedOperations.length = 4) :
    ∀ x ∈ fourOperations, x ∈ s.usedOperations := by
  intro x hx
  have hp := (List.subperm_of_subset h.nodup h.used_sub).perm_of_length_le
    (by rw [h4]; decide)
  exact hp.mem_iff.mpr hx

/-- Once four operations are used, no action changes the state or reports
anything. -/
theorem step_full {s : GameState} (h : Inv s) (h4 : s.usedOperations.length = 4)
    (a : Action) : step s a = (s, Feedback.silent) := by
  have hsel : s.selectedOperation = none := by
    cases ho : s.selectedOperation with
    | none => rfl
    | some op =>
      obtain ⟨hnot, hmem, _⟩ := h.selected op ho
      exact absurd (used_full h h4 op hmem) hnot
  cases a with
  | selectOperation op =>
    simp only [step, handleOperationSelect]
    rw [if_pos (Or.inr (used_full h h4 _ (symbol_mem op)))]
  | selectNumber j =>
    have hanchor : s.currentAnchor ≠ none := by
      intro hn
      have := h.no_anchor hn
      rw [h.used_eq, this] at h4
      simp at h4
    rcases handleNumberSelect_cases s j with he | ⟨_, _, _, _, _, _, ho, _⟩ |
      ⟨b, _, ha, _⟩ | ⟨x, i, b, op, r, _, _, ho, _⟩
    · simp only [step, he]
    · rw [hsel] at ho; exact absurd ho (by simp)
    · exact absurd ha hanchor
    · rw [hsel] at ho; exact absurd ho (by simp)

/-- From a state of an attempt, a sequence of clicks reports at most one
outcome, and none once four operations are used. -/
theorem outcomes_le_one {s : GameState} (h : Inv s) :
    ∀ actions, ((feedbacks s actions).filter Feedback.isOutcome).length ≤ 1 ∧
      (s.usedOperations.length = 4 →
        ((feedbacks s actions).filter Feedback.isOutcome).length = 0) := by
  intro actions
  induction actions generalizing s with
  | nil => simp [feedbacks]
  | cons a rest ih =>
    have ih' := ih (inv_step h a)
    constructor
    · simp only [feedbacks, List.filter_cons]
      rcases step_shape h a with ⟨_, _, hno, _⟩ | ⟨x, i, j, b, op, r, _, _, _, _, _, _, _, _,
        hu, _, hfb⟩
      · rw [hno]
        simpa using ih'.1
      · split
        · rename_i hout
          have h4 : (step s a).1.usedOperations.length = 4 := by
            rw [hfb] at hout
            rw [hu, List.length_append, List.length_singleton]
            by_contra hne
            rw [if_neg hne] at hout
            exact absurd hout (by decide)
          rw [List.length_cons, ih'.2 h4]
        · exact ih'.1
    · intro h4
      have hs := step_full h h4 a
      simp only [feedbacks, hs, List.filter_cons]
      have := ih h
      simp only [Feedback.isOutcome]
      simpa using (ih h).2 h4

/-- Claim C11: terminal outcome.  In an attempt from a fresh state, an action
reports an outcome exactly when it is the move that brings the number of used
operations from 3 to 4; the outcome is a win exactly when that move's result
is the target, and a loss (with the target) exactly when it is not; once four
operations are used no action changes the state or reports anything; so any
sequence of clicks reports at most one outcome. -/
theorem terminal_outcome (numbers : List (Option Int)) (target : Int) (s : GameState)
    (h : Reachable (freshState numbers target) s) (a : Action) (_hg : a.inGrid s) :
    ((step s a).2.isOutcome = true ↔
      s.usedOperations.length = 3 ∧ (step s a).1.usedOperations.length = 4) ∧
    ((step s a).2 = Feedback.win ↔
      s.usedOperations.length = 3 ∧ (step s a).1.usedOperations.length = 4 ∧
        ∃ e, (step s a).1.history.getLast? = some e ∧ e.result = target) ∧
    ((step s a).2 = Feedback.gameOver target ↔
      s.usedOperations.length = 3 ∧ (step s a).1.usedOperations.length = 4 ∧
        ∃ e, (step s a).1.history.getLast? = some e ∧ e.result ≠ target) ∧
    (s.usedOperations.length = 4 → step s a = (s, Feedback.silent)) ∧
    (∀ actions, ClicksInGrid s actions →
      ((feedbacks s actions).filter Feedback.isOutcome).length ≤ 1) := by
  have hi := inv_reachable h
  have ht : s.target = target := target_reachable h
  refine ⟨?_, ?_, ?_, fun h4 => step_full hi h4 a,
    fun actions _ => (outcomes_le_one hi actions).1⟩
  · rcases step_shape hi a with ⟨hu, _, hno, _⟩ | ⟨x, i, j, b, op, r, _, _, _, _, _, _, _, _,
      hu, _, hfb⟩
    · rw [hno, hu]
      constructor
      · intro hf; exact absurd hf (by simp)
      · rintro ⟨h3, h4⟩; omega
    · rw [hfb, hu, List.length_append, List.length_singleton]
      constructor
      · intro hout
        by_cases hl : s.usedOperations.length + 1 = 4
        · exact ⟨by omega, hl⟩
        · rw [if_neg hl] at hout
          exact absurd hout (by decide)
      · rintro ⟨_, hl⟩
        rw [if_pos hl]
        split <;> rfl
  · rcases step_shape hi a with ⟨hu, _, hno, _⟩ | ⟨x, i, j, b, op, r, _, _, _, _, _, _, _, _,
      hu, hh, hfb⟩
    · rw [hu]
      constructor
      · intro hf
        rw [hf] at hno
        exact absurd hno (by decide)
      · rintro ⟨h3, h4, _⟩; omega
    · rw [hfb, hu, hh, List.length_append, List.length_singleton, List.getLast?_concat, ht]
      constructor
      · intro hw
        by_cases hl : s.usedOperations.length + 1 = 4
        · rw [if_pos hl] at hw
          by_cases hr : r = target
          · exact ⟨by omega, hl, _, rfl, hr⟩
          · rw [if_neg hr] at hw
            exact absurd hw (by simp)
        · rw [if_neg hl] at hw
          exact absurd hw (by simp)
      · rintro ⟨_, hl, e, he, hr⟩
        simp only [Option.some.injEq] at he
        subst he
        rw [if_pos hl, if_pos hr]
  · rcases step_shape hi a with ⟨hu, _, hno, _⟩ | ⟨x, i, j, b, op, r, _, _, _, _, _, _, _, _,
      hu, hh, hfb⟩
    · rw [hu]
      constructor
      · intro hf
        rw [hf] at hno
        simp [Feedback.isOutcome] at hno
      · rintro ⟨h3, h4, _⟩; omega
    · rw [hfb, hu, hh, List.length_append, List.length_singleton, List.getLast?_concat, ht]
      constructor
      · intro hw
        by_cases hl : s.usedOperations.length + 1 = 4
        · rw [if_pos hl] at hw
          by_cases hr : r = target
          · rw [if_pos hr] at hw
            exact absurd hw (by simp)
          · exact ⟨by omega, hl, _, rfl, hr⟩
        · rw [if_neg hl] at hw
          exact absurd hw (by simp)
      · rintro ⟨_, hl, e, he, hr⟩
        simp only [Option.some.injEq] at he
        subst he
        rw [if_pos hl, if_neg hr]

/-- Witness of C11: the last click of `sampleGame` on target 9 wins, and the
whole attempt reports one outcome. -/
theorem terminal_outcome_sample :
    Reachable sampleStartNine (run sampleStartNine sampleGameOpen) ∧
      (step (run sampleStartNine sampleGameOpen) (.selectNumber 4)).2 = Feedback.win ∧
      ((feedbacks sampleStartNine sampleGame).filter Feedback.isOutcome).length = 1 ∧
      ((step (run sampleStartNine sampleGameOpen) (.selectNumber 4)).2.isOutcome = true ↔
        (run sampleStartNine sampleGameOpen).usedOperations.length = 3 ∧
          (step (run sampleStartNine sampleGameOpen)
            (.selectNumber 4)).1.usedOperations.length = 4) :=
  ⟨reachable_run Reachable.start sampleGameOpen (by decide), by decide, by decide,
    (terminal_outcome _ 9 (run sampleStartNine sampleGameOpen)
      (reachable_run Reachable.start sampleGameOpen (by decide)) (.selectNumber 4)
      (by decide)).1⟩

/-- Claim C16: anchor consistency.  In every state reachable from a fresh
state, when the anchor is set its slot is not empty and holds the anchor's
value. -/
theorem anchor_consistent (numbers : List (Option Int)) (target : Int) (s : GameState)
    (h : Reachable (freshState numbers target) s) (a : Int) (i : Nat)
    (ha : s.currentAnchor = some ⟨a, i⟩) :
    s.numbers[i]? = some (some a) ∧ i < s.numbers.length :=
  ⟨(inv_reachable h).anchor_slot a i ha,
    index_lt_of_getElem? ((inv_reachable h).anchor_slot a i ha)⟩

/-- Witness of C16: after `sampleGame` the anchor is slot 0 with value 9. -/
theorem anchor_consistent_sample :
    (run sampleStart sampleGame).currentAnchor = some ⟨9, 0⟩ ∧
      (run sampleStart sampleGame).numbers[0]? = some (some 9) :=
  ⟨by decide,
    (anchor_consistent _ 30 (run sampleStart sampleGame) sample_game_reachable 9 0
      (by decide)).1⟩

theorem anchor_index_step {s : GameState} {a : Int} {i : Nat}
    (ha : s.currentAnchor = some ⟨a, i⟩) (act : Action) :
    ∃ a', (step s act).1.currentAnchor = some ⟨a', i⟩ := by
  cases act with
  | selectOperation op =>
    simp only [step, handleOperationSelect]
    split
    · exact ⟨a, ha⟩
    · exact ⟨a, ha⟩
  | selectNumber j =>
    rcases handleNumberSelect_cases s j with he | ⟨_, _, _, _, _, _, _, _, _, _, he⟩ |
      ⟨b, _, hn, _⟩ | ⟨x, i', b, op, r, _, ha', _, _, _, he⟩
    · rw [show step s (.selectNumber j) = handleNumberSelect s j from rfl, he]
      exact ⟨a, ha⟩
    · rw [show step s (.selectNumber j) = handleNumberSelect s j from rfl, he]
      exact ⟨a, ha⟩
    · rw [hn] at ha
      exact absurd ha (by simp)
    · rw [show step s (.selectNumber j) = handleNumberSelect s j from rfl, he]
      rw [ha] at ha'
      simp only [Option.some.injEq, Anchor.mk.injEq] at ha'
      exact ⟨r, by rw [ha'.2]; rfl⟩

theorem anchor_index_reachable {s s' : GameState} (h : Reachable s s') :
    ∀ a i, s.currentAnchor = some ⟨a, i⟩ → ∃ a', s'.currentAnchor = some ⟨a', i⟩ := by
  induction h with
  | start => intro a i ha; exact ⟨a, ha⟩
  | next act _ _ ih =>
    intro a i ha
    obtain ⟨a', ha'⟩ := ih a i ha
    exact anchor_index_step ha' act

theorem chained_index : ∀ {l : List Step}, Chained l →
    ∀ k e1 e2, l[k]? = some e1 → l[k + 1]? = some e2 → e2.num1 = e1.result := by
  intro l
  induction l with
  | nil => intro _ k e1 e2 h1; simp at h1
  | cons x rest ih =>
    intro hc k e1 e2 h1 h2
    cases rest with
    | nil => simp at h2
    | cons y rest' =>
      have hc' := List.chain'_cons.mp hc
      cases k with
      | zero =>
        simp at h1 h2
        subst h1 h2
        exact hc'.1
      | succ k =>
        simp only [List.getElem?_cons_succ] at h1 h2
        exact ih hc'.2 k e1 e2 h1 (by simpa using h2)

/-- Claim C19: the anchor is fixed for the attempt.  Once the anchor is set, no
sequence of clicks clears it or changes its index; in every state of an
attempt each history entry starts from the result of the entry before it, and
the last result is the value of the anchor and of the anchor's slot; only
`resetPuzzle` and `initGame` clear the anchor. -/
theorem anchor_fixed (numbers : List (Option Int)) (target : Int) (s : GameState)
    (h : Reachable (freshState numbers target) s) :
    (∀ s' a i, s.currentAnchor = some ⟨a, i⟩ → Reachable s s' →
      ∃ a', s'.currentAnchor = some ⟨a', i⟩) ∧
    (∀ k e1 e2, s.history[k]? = some e1 → s.history[k + 1]? = some e2 →
      e2.num1 = e1.result) ∧
    (∀ e, s.history.getLast? = some e →
      ∃ i, s.currentAnchor = some ⟨e.result, i⟩ ∧ s.numbers[i]? = some (some e.result)) ∧
    (∀ w : World, (resetPuzzle w).gameState.currentAnchor = none) ∧
    (∀ p : PuzzleDefinition, (initGameWith p).gameState.currentAnchor = none) := by
  have hi := inv_reachable h
  refine ⟨fun s' a i ha hr => anchor_index_reachable hr a i ha,
    chained_index hi.chained, ?_, fun _ => rfl, fun _ => rfl⟩
  intro e he
  obtain ⟨i, ha⟩ := hi.last e he
  exact ⟨i, ha, hi.anchor_slot _ _ ha⟩

/-- Witness of C19: the anchor set by the first click of `sampleGame` is still
slot 0 at the end of the attempt. -/
theorem anchor_fixed_sample :
    (step sampleStart (.selectNumber 0)).1.currentAnchor = some ⟨3, 0⟩ ∧
      ∃ a', (run (step sampleStart (.selectNumber 0)).1 sampleGame.tail).currentAnchor =
        some ⟨a', 0⟩ :=
  ⟨by decide,
    (anchor_fixed _ 30 (step sampleStart (.selectNumber 0)).1
      (Reachable.next (.selectNumber 0) Reachable.start (by decide))).1 _ 3 0 (by decide)
      (reachable_run Reachable.start sampleGame.tail (by decide))⟩

/-- Claim C20: an outcome is reported only in a state whose history has exactly
four moves that use `+`, `-`, `×` and `÷` once each; the steps of a generated
puzzle, which use `×` twice and `-` never, are never such a history. -/
theorem outcome_history (numbers : List (Option Int)) (target : Int) (s : GameState)
    (h : Reachable (freshState numbers target) s) (a : Action) (_hg : a.inGrid s)
    (hout : (step s a).2.isOutcome = true) :
    (step s a).1.history.length = 4 ∧
    ((step s a).1.history.map Step.operation).Perm fourOperations ∧
    ((step s a).1.history.map Step.operation).count "-" = 1 ∧
    ((step s a).1.history.map Step.operation).count "×" = 1 ∧
    (∀ (rng : Nat → Nat) (t fuel : Nat) (p : PuzzleDefinition),
      generateSolution rng t fuel = some p →
        (p.steps.map Step.operation).count "-" = 0 ∧
        (p.steps.map Step.operation).count "×" = 2 ∧
        p.steps ≠ (step s a).1.history) := by
  have hi := inv_reachable h
  have hi' := inv_step hi a
  have h4 : (step s a).1.usedOperations.length = 4 := by
    rcases step_shape hi a with ⟨_, _, hno, _⟩ | ⟨x, i, j, b, op, r, _, _, _, _, _, _, _, _,
      hu, _, hfb⟩
    · rw [hno] at hout
      exact absurd hout (by simp)
    · rw [hu, List.length_append, List.length_singleton]
      by_contra hne
      rw [hfb, if_neg hne] at hout
      exact absurd hout (by decide)
  have hp : ((step s a).1.history.map Step.operation).Perm fourOperations := by
    rw [← hi'.used_eq]
    exact (List.subperm_of_subset hi'.nodup hi'.used_sub).perm_of_length_le
      (by rw [h4]; decide)
  have hc1 : ((step s a).1.history.map Step.operation).count "×" = 1 := by
    rw [hp.count_eq]; decide
  refine ⟨?_, hp, ?_, hc1, ?_⟩
  · rw [← h4, hi'.used_eq, List.length_map]
  · rw [hp.count_eq]; decide
  · intro rng t fuel p hgen
    have hg := generated_operations_perm hgen
    have hc2 : (p.steps.map Step.operation).count "×" = 2 := by
      rw [hg.count_eq]; decide
    refine ⟨by rw [hg.count_eq]; decide, hc2, ?_⟩
    intro heq
    rw [heq, hc1] at hc2
    exact absurd hc2 (by decide)

/-- Witness of C20: the last click of `sampleGame` reports an outcome, and the
history then uses the four operations once each. -/
theorem outcome_history_sample :
    (step (run sampleStart sampleGameOpen) (.selectNumber 4)).2 = Feedback.gameOver 30 ∧
      ((step (run sampleStart sampleGameOpen) (.selectNumber 4)).1.history.map
        Step.operation).Perm fourOperations :=
  ⟨by decide,
    (outcome_history _ 30 (run sampleStart sampleGameOpen)
      (reachable_run Reachable.start sampleGameOpen (by decide)) (.selectNumber 4)
      (by decide) (by decide)).2.1⟩

/-! ## Move engine: the grid -/

theorem pos_step {s : GameState} (hi : Inv s) (hp : Pos s) (act : Action) :
    Pos (step s act).1 := by
  cases act with
  | selectOperation op =>
    simp only [step, handleOperationSelect]
    split
    · exact hp
    · exact ⟨hp.grid, hp.hist⟩
  | selectNumber j =>
    rcases handleNumberSelect_cases s j with he | ⟨_, _, _, _, _, _, _, _, _, _, he⟩ |
      ⟨b, _, _, he⟩ | ⟨a, i, b, op, r, hj, ha, ho, hij, hc, he⟩
    · rw [show step s (.selectNumber j) = handleNumberSelect s j from rfl, he]
      exact hp
    · rw [show step s (.selectNumber j) = handleNumberSelect s j from rfl, he]
      exact hp
    · rw [show step s (.selectNumber j) = handleNumberSelect s j from rfl, he]
      exact ⟨hp.grid, hp.hist⟩
    · rw [show step s (.selectNumber j) = handleNumberSelect s j from rfl, he]
      have ha1 : 1 ≤ a := hp.grid i a (hi.anchor_slot a i ha)
      have hb1 : 1 ≤ b := hp.grid j b hj
      have hr1 : 1 ≤ r := calculateResult_pos ha1 hb1 hc
      constructor
      · intro k v hk
        simp only [moveState, List.getElem?_set] at hk
        split at hk
        · split at hk <;> simp at hk
        · split at hk
          · split at hk
            · simp only [Option.some.injEq] at hk
              omega
            · simp at hk
          · exact hp.grid k v hk
      · intro e he'
        simp only [moveState, List.mem_append, List.mem_singleton] at he'
        rcases he' with he' | rfl
        · exact hp.hist e he'
        · exact ⟨ha1, hb1, hr1⟩

theorem pos_reachable {numbers : List (Option Int)} {target : Int} {s : GameState}
    (hn : ∀ x ∈ numbers, ∃ v, x = some v ∧ 1 ≤ v ∧ v ≤ 9)
    (h : Reachable (freshState numbers target) s) : Pos s := by
  induction h with
  | start =>
    constructor
    · intro k v hk
      have hk' : numbers[k]? = some (some v) := hk
      obtain ⟨v', hv', h1, _⟩ := hn _ (List.getElem?_mem hk')
      simp only [Option.some.injEq] at hv'
      omega
    · intro e he
      simp [freshState] at he
  | next a hr _ ih => exact pos_step (inv_reachable hr) ih a

/-- Claim C18: positivity.  From a grid of integers in `1 .. 9`, in every
reachable state each value of the grid, the anchor's value and each result of
the history is at least 1; so the second operand of a `÷` move is never 0, and
`calculateResult` on `÷` is decided by the remainder alone. -/
theorem positivity_invariant (numbers : List (Option Int)) (target : Int) (s : GameState)
    (hn : ∀ x ∈ numbers, ∃ v, x = some v ∧ 1 ≤ v ∧ v ≤ 9)
    (h : Reachable (freshState numbers target) s) :
    (∀ (k : Nat) (v : Int), s.numbers[k]? = some (some v) → 1 ≤ v) ∧
    (∀ a i, s.currentAnchor = some ⟨a, i⟩ → 1 ≤ a) ∧
    (∀ e ∈ s.history, 1 ≤ e.result) ∧
    (∀ e ∈ s.history, e.num2 ≠ 0) ∧
    (∀ (a : Int) (j : Nat) (b : Int), s.numbers[j]? = some (some b) →
      b ≠ 0 ∧
      calculateResult a b "÷" = if Int.tmod a b = 0 then some (a / b) else none) := by
  have hi := inv_reachable h
  have hp := pos_reachable hn h
  refine ⟨hp.grid, ?_, ?_, ?_, ?_⟩
  · intro a i ha
    exact hp.grid i a (hi.anchor_slot a i ha)
  · intro e he
    exact (hp.hist e he).2.2
  · intro e he
    have := (hp.hist e he).2.1
    omega
  · intro a j b hj
    have hb := hp.grid j b hj
    have hb0 : b ≠ 0 := by omega
    refine ⟨hb0, ?_⟩
    simp only [calculateResult]
    rw [if_neg (by decide), if_neg (by decide), if_neg (by decide), if_pos trivial]
    by_cases hm : Int.tmod a b = 0
    · rw [if_pos ⟨hb0, hm⟩, if_pos hm]
    · rw [if_neg (fun hh => hm hh.2), if_neg hm]

/-- Witness of C18: the state after `sampleGame`. -/
theorem positivity_invariant_sample :
    Reachable sampleStart (run sampleStart sampleGame) ∧
      ∀ e ∈ (run sampleStart sampleGame).history, 1 ≤ e.result :=
  ⟨sample_game_reachable,
    (positivity_invariant _ 30 (run sampleStart sampleGame) (by decide)
      sample_game_reachable).2.2.1⟩

theorem length_step (s : GameState) (act : Action) :
    (step s act).1.numbers.length = s.numbers.length := by
  cases act with
  | selectOperation op =>
    simp only [step, handleOperationSelect]
    split <;> rfl
  | selectNumber j =>
    rcases handleNumberSelect_cases s j with he | ⟨_, _, _, _, _, _, _, _, _, _, he⟩ |
      ⟨b, _, _, he⟩ | ⟨a, i, b, op, r, _, _, _, _, _, he⟩
    · rw [show step s (.selectNumber j) = handleNumberSelect s j from rfl, he]
    · rw [show step s (.selectNumber j) = handleNumberSelect s j from rfl, he]
    · rw [show step s (.selectNumber j) = handleNumberSelect s j from rfl, he]
    · rw [show step s (.selectNumber j) = handleNumberSelect s j from rfl, he]
      simp [moveState]

theorem length_reachable {s0 s : GameState} (h : Reachable s0 s) :
    s.numbers.length = s0.numbers.length := by
  induction h with
  | start => rfl
  | next a _ _ ih => rw [length_step, ih]

theorem empty_step {s : GameState} (hi : Inv s) (act : Action) (k : Nat)
    (hk : s.numbers[k]? = some none) : (step s act).1.numbers[k]? = some none := by
  cases act with
  | selectOperation op =>
    simp only [step, handleOperationSelect]
    split <;> exact hk
  | selectNumber j =>
    rcases handleNumberSelect_cases s j with he | ⟨_, _, _, _, _, _, _, _, _, _, he⟩ |
      ⟨b, _, _, he⟩ | ⟨a, i, b, op, r, _, ha, _, _, _, he⟩
    · rw [show step s (.selectNumber j) = handleNumberSelect s j from rfl, he]
      exact hk
    · rw [show step s (.selectNumber j) = handleNumberSelect s j from rfl, he]
      exact hk
    · rw [show step s (.selectNumber j) = handleNumberSelect s j from rfl, he]
      exact hk
    · rw [show step s (.selectNumber j) = handleNumberSelect s j from rfl, he]
      have hik : i ≠ k := by
        intro hik
        subst hik
        rw [hi.anchor_slot a i ha] at hk
        simp at hk
      have hkl : k < s.numbers.length := index_lt_of_getElem? hk
      by_cases hjk : j = k
      · subst hjk
        simp [moveState, List.getElem?_set, hkl]
      · simp [moveState, List.getElem?_set, hjk, hik, hk]

theorem length_eight (l : List Int) (h : l.length = 8) :
    ∃ n0 n1 n2 n3 n4 n5 n6 n7, l = [n0, n1, n2, n3, n4, n5, n6, n7] := by
  match l, h with
  | [n0, n1, n2, n3, n4, n5, n6, n7], _ => exact ⟨n0, n1, n2, n3, n4, n5, n6, n7, rfl⟩

/-- What `initGame` builds: the fresh state on the eight numbers of a generated
puzzle followed by the first of them. -/
theorem initGame_some {rng : Nat → Nat} {t fuel : Nat} {w : World}
    (h : initGame rng t fuel = some w) :
    ∃ p n0 n1 n2 n3 n4 n5 n6 n7, generateSolution rng t fuel = some p ∧
      p.numbers = [n0, n1, n2, n3, n4, n5, n6, n7] ∧ w = initGameWith p ∧
      w.initialNumbers = [n0, n1, n2, n3, n4, n5, n6, n7, n0] ∧
      w.gameState =
        freshState [some n0, some n1, some n2, some n3, some n4, some n5, some n6,
          some n7, some n0] p.target ∧
      (∀ x ∈ w.gameState.numbers, ∃ v, x = some v ∧ 1 ≤ v ∧ v ≤ 9) := by
  unfold initGame at h
  cases hg : generateSolution rng t fuel with
  | none => rw [hg] at h; simp at h
  | some p =>
    rw [hg] at h
    simp only [Option.map_some', Option.some.injEq] at h
    obtain ⟨t', ht⟩ := generateSolution_some rng fuel t p hg
    have hnum : p.numbers = drawNumbers rng t' := ((tryCandidate_iff _ _ _).mp ht).1
    obtain ⟨n0, n1, n2, n3, n4, n5, n6, n7, hl⟩ :=
      length_eight p.numbers (by rw [hnum]; exact (drawNumbers_spec rng t').1)
    refine ⟨p, n0, n1, n2, n3, n4, n5, n6, n7, rfl, hl, h.symm, ?_, ?_, ?_⟩
    · rw [← h]; simp [initGameWith, hl]
    · rw [← h]; simp [initGameWith, hl, freshState]
    · intro x hx
      rw [← h] at hx
      simp only [initGameWith, List.mem_map, List.mem_append] at hx
      obtain ⟨v, hv, rfl⟩ := hx
      refine ⟨v, rfl, ?_⟩
      have hmem : v ∈ drawNumbers rng t' := by
        rw [← hnum]
        rcases hv with hv | hv
        · exact hv
        · rw [hl] at hv ⊢
          simp at hv
          simp [hv]
      exact (drawNumbers_spec rng t').2 v hmem

/-- Claim C17: consumed slots stay consumed.  In every state reachable from
the state `initGame` builds, the grid has exactly 9 slots, and a click leaves
every empty slot empty. -/
theorem consumed_slots_stay (rng : Nat → Nat) (t fuel : Nat) (w : World)
    (hw : initGame rng t fuel = some w) (s : GameState)
    (h : Reachable w.gameState s) (a : Action) (_hg : a.inGrid s) :
    s.numbers.length = 9 ∧ (step s a).1.numbers.length = 9 ∧
      ∀ k : Nat, s.numbers[k]? = some none → (step s a).1.numbers[k]? = some none := by
  obtain ⟨p, n0, n1, n2, n3, n4, n5, n6, n7, _, _, _, _, hfresh, _⟩ := initGame_some hw
  rw [hfresh] at h
  have hlen : s.numbers.length = 9 := by
    rw [length_reachable h]; rfl
  exact ⟨hlen, by rw [length_step, hlen], fun k hk => empty_step (inv_reachable h) a k hk⟩

/-- Witness of C17: the slot 1, consumed by the first move of `sampleGame`, is
empty after the next click. -/
theorem consumed_slots_stay_sample :
    initGame sampleRng 0 1 = some (initGameWith samplePuzzle) ∧
      (run sampleStart (sampleGame.take 3)).numbers[1]? = some none ∧
      (step (run sampleStart (sampleGame.take 3)) (.selectOperation .Add)).1.numbers[1]? =
        some none :=
  ⟨rfl, by decide,
    (consumed_slots_stay sampleRng 0 1 (initGameWith samplePuzzle) rfl
      (run sampleStart (sampleGame.take 3))
      (reachable_run Reachable.start (sampleGame.take 3) (by decide))
      (.selectOperation .Add) trivial).2.2 1 (by decide)⟩

/-! ## Reset and selections -/

theorem target_run (s : GameState) (actions : List Action) :
    (run s actions).target = s.target := by
  induction actions generalizing s with
  | nil => rfl
  | cons a rest ih => rw [run, ih, target_step]

theorem worldRun_eq (w : World) (actions : List Action) :
    worldRun w actions = { w with gameState := run w.gameState actions } := by
  induction actions generalizing w with
  | nil => rfl
  | cons a rest ih => rw [worldRun, ih]; rfl

/-- Claim C12: reset fidelity.  After `initGame` on a puzzle with numbers
`n0 .. n7` and target `t`, and any sequence of clicks, `resetPuzzle` gives the
grid `[n0, ..., n7, n0]` (nine slots, none empty), target `t`, no anchor, no
selected operation, no used operation and an empty history: the very globals
`initGame` produced; the stored starting numbers are never altered by clicks;
`resetPuzzle` is idempotent. -/
theorem reset_fidelity (rng : Nat → Nat) (t fuel : Nat) (w0 : World)
    (h : initGame rng t fuel = some w0) (actions : List Action) :
    (∃ p n0 n1 n2 n3 n4 n5 n6 n7, generateSolution rng t fuel = some p ∧
      p.numbers = [n0, n1, n2, n3, n4, n5, n6, n7] ∧
      (resetPuzzle (worldRun w0 actions)).gameState =
        { numbers := [some n0, some n1, some n2, some n3, some n4, some n5, some n6,
            some n7, some n0]
          target := p.target
          currentAnchor := none
          selectedOperation := none
          usedOperations := []
          history := [] }) ∧
    resetPuzzle (worldRun w0 actions) = w0 ∧
    (worldRun w0 actions).initialNumbers = w0.initialNumbers ∧
    resetPuzzle (resetPuzzle (worldRun w0 actions)) = resetPuzzle (worldRun w0 actions) := by
  obtain ⟨p, n0, n1, n2, n3, n4, n5, n6, n7, hg, hl, hw, hinit, hfresh, _⟩ := initGame_some h
  have hreset : resetPuzzle (worldRun w0 actions) = w0 := by
    rw [worldRun_eq]
    simp only [resetPuzzle, target_run]
    rw [hw]
    rfl
  refine ⟨⟨p, n0, n1, n2, n3, n4, n5, n6, n7, hg, hl, ?_⟩, hreset, ?_, ?_⟩
  · rw [hreset, hfresh]; rfl
  · rw [worldRun_eq]
  · rfl

/-- Witness of C12: reset after the attempt `sampleGame`. -/
theorem reset_fidelity_sample :
    initGame sampleRng 0 1 = some (initGameWith samplePuzzle) ∧
      resetPuzzle (worldRun (initGameWith samplePuzzle) sampleGame) =
        initGameWith samplePuzzle :=
  ⟨rfl, (reset_fidelity sampleRng 0 1 (initGameWith samplePuzzle) rfl sampleGame).2.1⟩

/-- Counterexample to C13: with slot 0 as anchor and no operation selected, a
click on slot 3 (holding 1) changes nothing: the anchor stays on slot 0. -/
theorem second_slot_click_ignored :
    (step sampleStart (.selectNumber 0)).1.currentAnchor = some ⟨3, 0⟩ ∧
    (step sampleStart (.selectNumber 0)).1.selectedOperation = none ∧
    (step sampleStart (.selectNumber 0)).1.numbers[3]? = some (some 1) ∧
    handleNumberSelect (step sampleStart (.selectNumber 0)).1 3 =
      ((step sampleStart (.selectNumber 0)).1, Feedback.silent) ∧
    (handleNumberSelect (step sampleStart (.selectNumber 0)).1 3).1.currentAnchor ≠
      some ⟨1, 3⟩ := by
  decide

/-- Claim C13, amended: with an anchor set and no operation selected, a click
on any slot is a silent no-op: the anchor is not replaced and no field
changes. -/
theorem no_reanchor (s : GameState) (a : Int) (i k : Nat)
    (ha : s.currentAnchor = some ⟨a, i⟩) (ho : s.selectedOperation = none) :
    handleNumberSelect s k = (s, Feedback.silent) := by
  rcases handleNumberSelect_cases s k with he | ⟨_, _, _, _, _, _, ho', _⟩ |
    ⟨b, _, hn, _⟩ | ⟨x, i', b, op, r, _, _, ho', _⟩
  · exact he
  · rw [ho] at ho'; exact absurd ho' (by simp)
  · rw [ha] at hn; exact absurd hn (by simp)
  · rw [ho] at ho'; exact absurd ho' (by simp)

/-- Witness of the amended C13 on `sampleStart` after a click on slot 0. -/
theorem no_reanchor_sample :
    handleNumberSelect (step sampleStart (.selectNumber 0)).1 3 =
      ((step sampleStart (.selectNumber 0)).1, Feedback.silent) :=
  no_reanchor (step sampleStart (.selectNumber 0)).1 3 0 3 (by decide) (by decide)

/-- Claim C14: legal selections.  With no anchor, a click on a non-empty slot
`k` sets the anchor to `{ value: grid[k], index: k }` and changes nothing else;
with an anchor, the selection of an operation not yet used sets the selected
operation and changes nothing else; in every other case the selection of an
operation changes nothing. -/
theorem legal_selection (s : GameState) :
    (∀ (k : Nat) (v : Int), s.currentAnchor = none → s.numbers[k]? = some (some v) →
      handleNumberSelect s k = ({ s with currentAnchor := some ⟨v, k⟩ }, Feedback.silent)) ∧
    (∀ op : String, s.currentAnchor ≠ none → op ∉ s.usedOperations →
      handleOperationSelect s op = { s with selectedOperation := some op }) ∧
    (∀ op : String, ¬ (s.currentAnchor ≠ none ∧ op ∉ s.usedOperations) →
      handleOperationSelect s op = s) := by
  refine ⟨fun k v ha hk => handleNumberSelect_first hk ha, ?_, ?_⟩
  · intro op ha hu
    unfold handleOperationSelect
    rw [if_neg (by simp [ha, hu])]
  · intro op hcond
    unfold handleOperationSelect
    rw [if_pos]
    by_cases ha : s.currentAnchor = none
    · exact Or.inl ha
    · exact Or.inr (by_contra fun hu => hcond ⟨ha, hu⟩)

/-- Witness of C14: the first click on `sampleStart`, then the `+` button. -/
theorem legal_selection_sample :
    handleNumberSelect sampleStart 0 =
        ({ sampleStart with currentAnchor := some ⟨3, 0⟩ }, Feedback.silent) ∧
      handleOperationSelect (step sampleStart (.selectNumber 0)).1 "+" =
        { (step sampleStart (.selectNumber 0)).1 with selectedOperation := some "+" } :=
  ⟨(legal_selection sampleStart).1 0 3 rfl rfl,
    (legal_selection (step sampleStart (.selectNumber 0)).1).2.1 "+" (by decide)
      (by decide)⟩

/-- Claim C15: illegal selections are silent no-ops.  A click on an empty
slot, a click on the anchor's own slot (an operation selected or not), the
selection of an operation already used, and the selection of an operation with
no anchor each return the state unchanged with no feedback. -/
theorem illegal_selection (s : GameState) :
    (∀ k : Nat, s.numbers[k]? = some none →
      handleNumberSelect s k = (s, Feedback.silent)) ∧
    (∀ (a : Int) (i : Nat), s.currentAnchor = some ⟨a, i⟩ →
      handleNumberSelect s i = (s, Feedback.silent)) ∧
    (∀ op : String, op ∈ s.usedOperations → handleOperationSelect s op = s) ∧
    (∀ op : String, s.currentAnchor = none → handleOperationSelect s op = s) ∧
    (∀ op : Operation, op.symbol ∈ s.usedOperations ∨ s.currentAnchor = none →
      step s (.selectOperation op) = (s, Feedback.silent)) := by
  refine ⟨?_, ?_, ?_, ?_, ?_⟩
  · intro k hk
    unfold handleNumberSelect
    simp only [hk]
  · intro a i ha
    rcases handleNumberSelect_cases s i with he | ⟨_, i', _, _, _, ha', _, _, hne, _⟩ |
      ⟨b, _, hn, _⟩ | ⟨x, i', b, op, r, _, ha', _, hne, _⟩
    · exact he
    · rw [ha] at ha'
      simp only [Option.some.injEq, Anchor.mk.injEq] at ha'
      exact absurd ha'.2.symm hne
    · rw [ha] at hn; exact absurd hn (by simp)
    · rw [ha] at ha'
      simp only [Option.some.injEq, Anchor.mk.injEq] at ha'
      exact absurd ha'.2.symm hne
  · intro op hu
    unfold handleOperationSelect
    rw [if_pos (Or.inr hu)]
  · intro op ha
    unfold handleOperationSelect
    rw [if_pos (Or.inl ha)]
  · intro op hcond
    simp only [step, handleOperationSelect]
    rw [if_pos (by rcases hcond with h | h; exact Or.inr h; exact Or.inl h)]

/-- Witness of C15: after the first move of `sampleGame`, a click on the
consumed slot 1, a click on the anchor's slot 0 and the used button `×`. -/
theorem illegal_selection_sample :
    handleNumberSelect (run sampleStart (sampleGame.take 3)) 1 =
        (run sampleStart (sampleGame.take 3), Feedback.silent) ∧
      handleNumberSelect (run sampleStart (sampleGame.take 3)) 0 =
        (run sampleStart (sampleGame.take 3), Feedback.silent) ∧
      handleOperationSelect (run sampleStart (sampleGame.take 3)) "×" =
        run sampleStart (sampleGame.take 3) :=
  ⟨(illegal_selection (run sampleStart (sampleGame.take 3))).1 1 (by decide),
    (illegal_selection (run sampleStart (sampleGame.take 3))).2.1 9 0 (by decide),
    (illegal_selection (run sampleStart (sampleGame.take 3))).2.2.1 "×" (by decide)⟩

/-! ## Solvability of a generated puzzle -/

theorem moveBound_le (used : List String) : 3 ≤ moveBound used ∧ moveBound used ≤ 18 := by
  unfold moveBound
  split <;> split <;> decide

theorem moveBound_append {used : List String} {op : String} {a b r : Int}
    (hnot : op ∉ used) (ha1 : 1 ≤ a) (ha : a ≤ moveBound used) (hb1 : 1 ≤ b) (hb : b ≤ 3)
    (hc : calculateResult a b op = some r) :
    1 ≤ r ∧ r ≤ moveBound (used ++ [op]) := by
  refine ⟨calculateResult_pos ha1 hb1 hc, ?_⟩
  rcases calculateResult_cases hc with ⟨rfl, rfl⟩ | ⟨rfl, _, rfl⟩ | ⟨rfl, rfl⟩ |
    ⟨rfl, _, hm, rfl⟩
  · have h1 : ¬ "+" ∈ used := hnot
    simp only [moveBound, List.mem_append, List.mem_singleton, h1, if_false, or_true,
      if_true] at ha ⊢
    have e : ("×" = "+") = False := by decide
    simp only [e, or_false]
    by_cases hx : "×" ∈ used <;> simp only [hx, if_true, if_false] at ha ⊢ <;> omega
  · simp only [moveBound, List.mem_append, List.mem_singleton] at ha ⊢
    have e1 : ("+" = "-") = False := by decide
    have e2 : ("×" = "-") = False := by decide
    simp only [e1, e2, or_false]
    omega
  · have h1 : ¬ "×" ∈ used := hnot
    simp only [moveBound, List.mem_append, List.mem_singleton, h1, if_false, or_true,
      if_true] at ha ⊢
    have e : ("+" = "×") = False := by decide
    simp only [e, or_false]
    have hmul : a * b ≤ a * 3 := Int.mul_le_mul_of_nonneg_left hb (by omega)
    by_cases hx : "+" ∈ used <;> simp only [hx, if_true, if_false] at ha ⊢ <;> omega
  · simp only [moveBound, List.mem_append, List.mem_singleton] at ha ⊢
    have e1 : ("+" = "÷") = False := by decide
    have e2 : ("×" = "÷") = False := by decide
    simp only [e1, e2, or_false]
    have := (exact_quotient_pos ha1 hb1 hm).2
    omega

theorem small_step {s : GameState} (hi : Inv s) (hs : Small s) (act : Action) :
    Small (step s act).1 := by
  cases act with
  | selectOperation op =>
    simp only [step, handleOperationSelect]
    split
    · exact hs
    · exact ⟨hs.target, hs.grid, hs.anchor⟩
  | selectNumber j =>
    rcases handleNumberSelect_cases s j with he | ⟨_, _, _, _, _, _, _, _, _, _, he⟩ |
      ⟨b, hj, hn, he⟩ | ⟨a, i, b, op, r, hj, ha, ho, hij, hc, he⟩
    · rw [show step s (.selectNumber j) = handleNumberSelect s j from rfl, he]
      exact hs
    · rw [show step s (.selectNumber j) = handleNumberSelect s j from rfl, he]
      exact hs
    · rw [show step s (.selectNumber j) = handleNumberSelect s j from rfl, he]
      have hb : 1 ≤ b ∧ b ≤ 3 := by
        rcases hs.grid j b hj with ⟨a, ha⟩ | hb
        · rw [hn] at ha; exact absurd ha (by simp)
        · exact hb
      refine ⟨hs.target, ?_, ?_⟩
      · intro k v hk
        rcases hs.grid k v hk with ⟨a, ha⟩ | hv
        · rw [hn] at ha; exact absurd ha (by simp)
        · exact Or.inr hv
      · intro a i ha
        simp only [Option.some.injEq, Anchor.mk.injEq] at ha
        obtain ⟨rfl, _⟩ := ha
        exact ⟨hb.1, le_trans hb.2 (moveBound_le _).1⟩
    · rw [show step s (.selectNumber j) = handleNumberSelect s j from rfl, he]
      have hnot := (hi.selected op ho).1
      have hadd : setAdd s.usedOperations op = s.usedOperations ++ [op] := by
        simp [setAdd, hnot]
      have hb : 1 ≤ b ∧ b ≤ 3 := by
        rcases hs.grid j b hj with ⟨a', ha'⟩ | hb
        · rw [ha] at ha'
          simp only [Option.some.injEq, Anchor.mk.injEq] at ha'
          exact absurd ha'.2 hij
        · exact hb
      have hab := hs.anchor a i ha
      have hr := moveBound_append hnot hab.1 hab.2 hb.1 hb.2 hc
      refine ⟨hs.target, ?_, ?_⟩
      · intro k v hk
        by_cases hki : k = i
        · exact Or.inl ⟨r, by rw [hki]; rfl⟩
        · right
          have hk' : s.numbers[k]? = some (some v) := by
            by_cases hjk : j = k
            · subst hjk
              simp only [moveState, List.getElem?_set] at hk
              simp only [if_true] at hk
              split at hk <;> simp at hk
            · simpa [moveState, List.getElem?_set, hjk, Ne.symm hki] using hk
          rcases hs.grid k v hk' with ⟨a', ha'⟩ | hv
          · rw [ha] at ha'
            simp only [Option.some.injEq, Anchor.mk.injEq] at ha'
            exact absurd ha'.2.symm hki
          · exact hv
      · intro a' i' ha'
        simp only [moveState, Option.some.injEq, Anchor.mk.injEq] at ha'
        obtain ⟨rfl, _⟩ := ha'
        simp only [moveState, hadd]
        exact hr

theorem small_start : Small sampleStart := by
  refine ⟨rfl, ?_, ?_⟩
  · intro k v hk
    right
    have hmem : some v ∈ sampleStart.numbers := List.getElem?_mem hk
    simp only [sampleStart, freshState, List.mem_cons, Option.some.injEq,
      List.mem_singleton, List.not_mem_nil, or_false] at hmem
    omega
  · intro a i ha
    simp [sampleStart, freshState] at ha

theorem small_reachable {s : GameState} (h : Reachable sampleStart s) : Small s := by
  induction h with
  | start => exact small_start
  | next a hr _ ih => exact small_step (inv_reachable hr) ih a

/-- Evaluation for C2: the candidate with numbers `[3,3,3,1,3,3,3,3]` and
operations `[×, ×, ÷, +]` is accepted with target 30, and from the state
`initGame` builds for it no sequence of clicks ends in a win: with one `+` and
one `×` the anchor never exceeds `(3 + 3) × 3 = 18`. -/
theorem sample_puzzle_unwinnable :
    generateSolution sampleRng 0 1 = some samplePuzzle ∧
    initGame sampleRng 0 1 = some (initGameWith samplePuzzle) ∧
    samplePuzzle.target = 30 ∧
    ∀ s, Reachable (initGameWith samplePuzzle).gameState s →
      ∀ a, a.inGrid s → (step s a).2 ≠ Feedback.win := by
  refine ⟨rfl, rfl, rfl, ?_⟩
  intro s h a _ hwin
  have h' : Reachable sampleStart s := h
  have hi := inv_reachable h'
  have hs := small_reachable h'
  have hs' := small_step hi hs a
  rcases step_shape hi a with ⟨_, _, hno, _⟩ | ⟨x, i, j, b, op, r, _, _, _, _, _, _, _, hst,
    _, _, hfb⟩
  · rw [hwin] at hno
    exact absurd hno (by decide)
  · have hr : r = 30 := by
      rw [hfb, hs.target] at hwin
      by_cases hl : s.usedOperations.length + 1 = 4
      · rw [if_pos hl] at hwin
        by_cases hr : r = 30
        · exact hr
        · rw [if_neg hr] at hwin
          exact absurd hwin (by simp)
      · rw [if_neg hl] at hwin
        exact absurd hwin (by simp)
    have hanchor : (step s a).1.currentAnchor = some ⟨r, i⟩ := by rw [hst]; rfl
    have hb := (hs'.anchor r i hanchor).2
    have := (moveBound_le (step s a).1.usedOperations).2
    omega

end NumbersQuest
